import Mathlib

/-!
Verification of the PII detection-and-merge engine of the redaction tool.

The definitions below are a shallow embedding of the TypeScript sources:
  - src/lib/redaction/patterns.ts   (regex pattern table, dedup, masking)
  - src/lib/redaction/detector.ts   (multi-pass detection and merging)
  - the session redaction cache module (export/import of hashed entries)

Modelling conventions:
  - JS strings are modelled as `List Char`; indices are character offsets.
  - JS numeric confidences are two-decimal constants in the source; they are
    modelled in hundredths as `Nat` (0.95 becomes 95) so that all comparisons
    are exact and decidable.
  - Each JS regular expression is modelled by a dedicated matcher function
    `Option Char → List Char → Option Nat`: given the character preceding the
    current position (for word boundaries) and the suffix of the text starting
    there, it returns the length of the match at that position, following the
    regex engine's leftmost, greedy, backtracking semantics.
  - Calls to the external generative service are modelled by an `Oracle`
    argument: each of the three call sites either throws (`Except.error`,
    which also covers unparsable responses) or returns the parsed JSON array.
-/

namespace Redaction

/-- PII entity types, patterns.ts line 5. -/
inductive EntityType where
  | SSN
  | ACCOUNT_NUMBER
  | CREDIT_CARD
  | NAME
  | ADDRESS
  | PHONE
  | EMAIL
  | DOB
  | CUSTOM
deriving DecidableEq, Repr

/-- A JS string, as a list of characters. -/
abbrev Str := List Char

/-- PatternMatch, patterns.ts lines 7-13.  `EnhancedPatternMatch` of
detector.ts adds `normalizedValue` and `context` fields; those fields are
never read by any branching code (they only feed prompts and UI text), so the
single structure below models both. Confidence is in hundredths. -/
structure PatternMatch where
  type : EntityType
  value : Str
  startIndex : Nat
  endIndex : Nat
  confidence : Nat
deriving DecidableEq, Repr

/-! ### Character classes and word boundaries (JS regex semantics) -/

/-- JS regex `\w`: ASCII letters, digits and underscore. -/
def isWordChar (c : Char) : Bool := c.isAlphanum || c == '_'

def isWordOpt : Option Char → Bool
  | none => false
  | some c => isWordChar c

/-- JS regex `\b` between the character before the position (none at the
start of the text) and the character at the position (none at the end). -/
def atBoundary (prev next : Option Char) : Bool := isWordOpt prev != isWordOpt next

def inRange (lo hi c : Char) : Bool := decide (lo ≤ c) && decide (c ≤ hi)

/-- `[1-9]` -/
def nzDigit (c : Char) : Bool := inRange '1' '9' c

/-- `[2-9]` -/
def digit29 (c : Char) : Bool := inRange '2' '9' c

def countLeading (p : Char → Bool) : Str → Nat
  | [] => 0
  | c :: r => if p c then countLeading p r + 1 else 0

/-- The first `n` characters of `s` exist and are all digits. -/
def digitsAt (s : Str) (n : Nat) : Bool :=
  (s.take n).length == n && (s.take n).all Char.isDigit

/-- No word character right after the first `n` characters of `s` (that is,
`\b` holds there when the n-th character is a word character). -/
def nonWordAfter (s : Str) (n : Nat) : Bool := !(isWordOpt (s.drop n).head?)

/-! ### SSN matcher

patterns.ts line 25:
`\b(?!000|666|9\d{2})([0-8]\d{2}|7([0-6]\d|7[012]))([-\s]?)(?!00)\d{2}\3(?!0000)\d{4}\b`

The second area alternative `7([0-6]\d|7[012])` only matches strings already
matched by the first `[0-8]\d{2}` (same three characters consumed, later
group captures unused), so the area test below is the first alternative plus
the negative lookahead. The captured separator `([-\s]?)` is greedy; if a
separator character is present but the continuation fails, the empty-separator
fallback immediately fails on the non-digit separator character, which the
`orElse` below reproduces exactly. -/

/-- `[-\s]` -/
def isSSNSep (c : Char) : Bool := c == '-' || c.isWhitespace

/-- Continuation after the three area digits, with a one-character captured
separator: `(c)\d{2}(c)\d{4}\b` with the `(?!00)` and `(?!0000)` lookaheads. -/
def matchSSNsep : Str → Option Nat
  | c :: g1 :: g2 :: c2 :: s1 :: s2 :: s3 :: s4 :: rest =>
    if isSSNSep c && g1.isDigit && g2.isDigit && !(g1 == '0' && g2 == '0')
        && c2 == c && s1.isDigit && s2.isDigit && s3.isDigit && s4.isDigit
        && !(s1 == '0' && s2 == '0' && s3 == '0' && s4 == '0')
        && !(isWordOpt rest.head?)
    then some 11 else none
  | _ => none

/-- Continuation after the three area digits with the empty separator. -/
def matchSSNempty : Str → Option Nat
  | g1 :: g2 :: s1 :: s2 :: s3 :: s4 :: rest =>
    if g1.isDigit && g2.isDigit && !(g1 == '0' && g2 == '0')
        && s1.isDigit && s2.isDigit && s3.isDigit && s4.isDigit
        && !(s1 == '0' && s2 == '0' && s3 == '0' && s4 == '0')
        && !(isWordOpt rest.head?)
    then some 9 else none
  | _ => none

def matchSSN (prev : Option Char) (s : Str) : Option Nat :=
  match s with
  | a1 :: a2 :: a3 :: rest =>
    if atBoundary prev (some a1) && a1.isDigit && a2.isDigit && a3.isDigit
        && !(a1 == '0' && a2 == '0' && a3 == '0')
        && !(a1 == '6' && a2 == '6' && a3 == '6')
        && !(a1 == '9') && inRange '0' '8' a1
    then (matchSSNsep rest).orElse (fun _ => matchSSNempty rest)
    else none
  | _ => none

/-! ### Credit card matcher

patterns.ts line 31:
`\b(?:4[0-9]{12}(?:[0-9]{3})?|5[1-5][0-9]{14}|3[47][0-9]{13}|6(?:011|5[0-9]{2})[0-9]{12})\b`

The four alternatives start with distinct digits.  For the Visa alternative
the optional `(?:[0-9]{3})?` is greedy: 16 digits with a trailing boundary
are preferred, otherwise the group backtracks to empty and the boundary is
re-checked after 13 digits. -/
def matchCC (prev : Option Char) (s : Str) : Option Nat :=
  if !(atBoundary prev s.head?) then none else
  match s with
  | '4' :: _ =>
    if digitsAt s 13 then
      if digitsAt s 16 && nonWordAfter s 16 then some 16
      else if nonWordAfter s 13 then some 13 else none
    else none
  | '5' :: c :: _ =>
    if inRange '1' '5' c && digitsAt s 16 && nonWordAfter s 16 then some 16 else none
  | '3' :: c :: _ =>
    if (c == '4' || c == '7') && digitsAt s 15 && nonWordAfter s 15 then some 15 else none
  | '6' :: c1 :: c2 :: c3 :: _ =>
    if ((c1 == '0' && c2 == '1' && c3 == '1') || c1 == '5')
        && digitsAt s 16 && nonWordAfter s 16
    then some 16 else none
  | _ => none

/-! ### Account number matcher

patterns.ts line 37 (flags `gi`):
`\b(?:account\s*(?:number|#|no\.?)?:?\s*)?([0-9]{8,17})\b`

Notes on the faithful collapse of backtracking:
  - `\s*` is matched greedily; every token that can follow it starts with a
    non-whitespace character, so no shorter match can ever succeed.
  - In `(?:number|#|no\.?)?` the alternatives are tried in order; when one
    matches but the continuation fails, the remaining alternatives and the
    empty case provably fail as well (they leave a character that none of
    `.`, `:`, whitespace or digit accepts), so committing is exact.
  - `[0-9]{8,17}` is greedy; backtracking to fewer than all leading digits
    always leaves a digit as the next character, where `\b` fails, so a match
    succeeds exactly when the maximal digit run has length 8..17 followed by
    a non-word character. -/

/-- Case-insensitive literal: consume `pat` from the head of `s`. -/
def ciStarts : Str → Str → Option Str
  | [], s => some s
  | _ :: _, [] => none
  | p :: ps, c :: cs => if c.toLower == p.toLower then ciStarts ps cs else none

/-- `\s*`, greedy. -/
def dropWS (s : Str) : Str := s.dropWhile Char.isWhitespace

/-- `c?`, greedy. -/
def optChar (c : Char) (s : Str) : Str :=
  match s with
  | x :: r => if x == c then r else s
  | [] => s

/-- `(?:number|#|no\.?)?` (case-insensitive). -/
def acctNoise (s : Str) : Str :=
  match ciStarts "number".toList s with
  | some r => r
  | none =>
    match s with
    | '#' :: r => r
    | _ =>
      match ciStarts "no".toList s with
      | some r => optChar '.' r
      | none => s

/-- `([0-9]{8,17})\b` (returns the number of digits consumed). -/
def matchAcctDigits (s : Str) : Option Nat :=
  let n := countLeading Char.isDigit s
  if decide (8 ≤ n) && decide (n ≤ 17) && nonWordAfter s n then some n else none

/-- The branch where the optional `account...` context is present. -/
def matchAcctPref (s : Str) : Option Nat :=
  match ciStarts "account".toList s with
  | none => none
  | some r1 =>
    let r5 := dropWS (optChar ':' (acctNoise (dropWS r1)))
    match matchAcctDigits r5 with
    | some n => some (s.length - r5.length + n)
    | none => none

def matchAcct (prev : Option Char) (s : Str) : Option Nat :=
  if !(atBoundary prev s.head?) then none else
  (matchAcctPref s).orElse (fun _ => matchAcctDigits s)

/-! ### Phone matcher

patterns.ts line 43:
`\b(?:\+?1[-.\s]?)?(?:\(?[2-9][0-9]{2}\)?[-.\s]?)?[2-9][0-9]{2}[-.\s]?[0-9]{4}\b`

The two optional groups and the optional separators genuinely backtrack; the
matcher enumerates the remaining suffixes of every parse in the regex
engine's depth-first order (greedy options first) and takes the first parse
whose trailing word boundary holds. -/

/-- `[-.\s]` -/
def isPhoneSep (c : Char) : Bool := c == '-' || c == '.' || c.isWhitespace

/-- Suffixes after `p?` for a single character class, greedy order. -/
def optCharOpts (p : Char → Bool) (s : Str) : List Str :=
  match s with
  | c :: r => if p c then [r, s] else [s]
  | [] => [s]

/-- Suffixes after `(?:\+?1[-.\s]?)?`. -/
def phoneCountryOpts (s : Str) : List Str :=
  (match s with
   | '+' :: '1' :: r => optCharOpts isPhoneSep r
   | _ => []) ++
  (match s with
   | '1' :: r => optCharOpts isPhoneSep r
   | _ => []) ++ [s]

/-- Suffixes after `[2-9][0-9]{2}\)?[-.\s]?`. -/
def phoneAreaCore (t : Str) : List Str :=
  match t with
  | c1 :: c2 :: c3 :: r =>
    if digit29 c1 && c2.isDigit && c3.isDigit then
      (match r with
       | ')' :: r2 => optCharOpts isPhoneSep r2
       | _ => []) ++ optCharOpts isPhoneSep r
    else []
  | _ => []

/-- Suffixes after `(?:\(?[2-9][0-9]{2}\)?[-.\s]?)?`. -/
def phoneAreaOpts (s : Str) : List Str :=
  ((match s with
    | '(' :: r => phoneAreaCore r
    | _ => []) ++ phoneAreaCore s) ++ [s]

/-- `[0-9]{4}`. -/
def phoneLast4 (t : Str) : Option Str :=
  match t with
  | d1 :: d2 :: d3 :: d4 :: rest =>
    if d1.isDigit && d2.isDigit && d3.isDigit && d4.isDigit then some rest else none
  | _ => none

/-- Suffixes after the mandatory core `[2-9][0-9]{2}[-.\s]?[0-9]{4}`. -/
def phoneCore (s : Str) : List Str :=
  match s with
  | c1 :: c2 :: c3 :: r =>
    if digit29 c1 && c2.isDigit && c3.isDigit then
      (optCharOpts isPhoneSep r).filterMap phoneLast4
    else []
  | _ => []

def matchPhone (prev : Option Char) (s : Str) : Option Nat :=
  if !(atBoundary prev s.head?) then none else
  match (((phoneCountryOpts s).flatMap phoneAreaOpts).flatMap phoneCore).filter
      (fun rest => !(isWordOpt rest.head?)) with
  | rest :: _ => some (s.length - rest.length)
  | [] => none

/-! ### Email matcher

patterns.ts line 49:
`\b[A-Za-z0-9._%+-]+@[A-Za-z0-9.-]+\.[A-Z|a-z]{2,}\b`

`@` is not a local-part character, so the greedy `+` run before it never
backtracks usefully: the local part is the maximal run.  The domain run
`[A-Za-z0-9.-]+` backtracks from the longest prefix, looking for a literal
`.` at its end; the TLD class `[A-Z|a-z]` literally contains `|`, and its
greedy `{2,}` repetition backtracks until the trailing `\b` holds. -/

def isLocalChar (c : Char) : Bool :=
  c.isAlphanum || c == '.' || c == '_' || c == '%' || c == '+' || c == '-'

def isDomainChar (c : Char) : Bool := c.isAlphanum || c == '.' || c == '-'

/-- `[A-Z|a-z]`, including the literal `|` of the source character class. -/
def isTldChar (c : Char) : Bool := inRange 'A' 'Z' c || c == '|' || inRange 'a' 'z' c

/-- Greedy `{2,}` with trailing `\b`: try `j+1` TLD characters, then fewer. -/
def emailTldGo (tld : Str) : Nat → Option Nat
  | 0 => none
  | j + 1 =>
    if decide (2 ≤ j + 1) && (isWordOpt tld[j]? != isWordOpt (tld.drop (j + 1)).head?)
    then some (j + 1)
    else emailTldGo tld j

/-- Domain backtracking: `k+1` is the candidate length of the `+` run before
the literal dot; candidates are tried longest first. Returns the total length
of the part matched after the `@`. -/
def emailDomGo (t : Str) : Nat → Option Nat
  | 0 => none
  | k + 1 =>
    (match (if t[k + 1]? == some '.' then
        emailTldGo (t.drop (k + 2)) (countLeading isTldChar (t.drop (k + 2)))
      else none) with
     | some j => some (k + 2 + j)
     | none => emailDomGo t k)

def matchEmail (prev : Option Char) (s : Str) : Option Nat :=
  if !(atBoundary prev s.head?) then none else
  let nL := countLeading isLocalChar s
  if nL == 0 then none else
  match s.drop nL with
  | '@' :: t =>
    match emailDomGo t (countLeading isDomainChar t - 1) with
    | some dlen => some (nL + 1 + dlen)
    | none => none
  | _ => none

/-! ### DOB matcher

patterns.ts line 55:
`\b(?:0?[1-9]|1[0-2])[dash or slash](?:0?[1-9]|[12][0-9]|3[01])[dash or slash](?:19|20)\d{2}\b`

Month and day alternations are enumerated in the engine's order (greedy `0?`
first); the two separators are independent dash-or-slash classes (no backreference). -/

/-- The separator class: a dash or a slash. -/
def dobSep : Str → Option Str
  | c :: r => if c == '-' || c == '/' then some r else none
  | [] => none

/-- Suffixes after `(?:0?[1-9]|1[0-2])`, in backtracking order. -/
def monthOpts (s : Str) : List Str :=
  (match s with
   | '0' :: c :: r => if nzDigit c then [r] else []
   | _ => []) ++
  (match s with
   | c :: r => if nzDigit c then [r] else []
   | _ => []) ++
  (match s with
   | '1' :: c :: r => if inRange '0' '2' c then [r] else []
   | _ => [])

/-- Suffixes after `(?:0?[1-9]|[12][0-9]|3[01])`, in backtracking order. -/
def dayOpts (s : Str) : List Str :=
  (match s with
   | '0' :: c :: r => if nzDigit c then [r] else []
   | _ => []) ++
  (match s with
   | c :: r => if nzDigit c then [r] else []
   | _ => []) ++
  (match s with
   | c :: d :: r => if (c == '1' || c == '2') && d.isDigit then [r] else []
   | _ => []) ++
  (match s with
   | '3' :: c :: r => if c == '0' || c == '1' then [r] else []
   | _ => [])

/-- `(?:19|20)\d{2}`. -/
def yearTake : Str → Option Str
  | '1' :: '9' :: a :: b :: r => if a.isDigit && b.isDigit then some r else none
  | '2' :: '0' :: a :: b :: r => if a.isDigit && b.isDigit then some r else none
  | _ => none

def matchDOB (prev : Option Char) (s : Str) : Option Nat :=
  if !(atBoundary prev s.head?) then none else
  match ((((monthOpts s).filterMap dobSep).flatMap
      (fun r => (dayOpts r).filterMap dobSep)).filterMap yearTake).filter
      (fun rest => !(isWordOpt rest.head?)) with
  | rest :: _ => some (s.length - rest.length)
  | [] => none

/-! ### The exec loop

patterns.ts lines 65-77: for each pattern, `lastIndex` starts at 0 and
`regex.exec` repeatedly returns the leftmost match at or after `lastIndex`,
which then advances past the match.  `execGo` scans every position from left
to right; fuel `text.length + 1` is enough because every step either advances
one position or consumes a (non-empty) match. -/
def execGo (matcher : Option Char → Str → Option Nat) :
    Nat → Option Char → Nat → Str → List (Nat × Nat)
  | 0, _, _, _ => []
  | _ + 1, _, _, [] => []
  | fuel + 1, prev, i, c :: rest =>
    match matcher prev (c :: rest) with
    | some len =>
      (i, len) :: execGo matcher fuel (((c :: rest).take len).getLast?) (i + len)
        ((c :: rest).drop len)
    | none => execGo matcher fuel (some c) (i + 1) rest

/-- All matches of one pattern in `text`, as (startIndex, length) pairs. -/
def execAll (matcher : Option Char → Str → Option Nat) (text : Str) : List (Nat × Nat) :=
  execGo matcher (text.length + 1) none 0 text

/-! ### Masks and the pattern table (patterns.ts lines 22-59, 99-102) -/

/-- `v.replace(/\D/g, '').slice(-4)`: the last four digits of `v` (all of
them when there are fewer than four). -/
def last4Digits (v : Str) : Str :=
  let ds := v.filter Char.isDigit
  ds.drop (ds.length - 4)

def maskSSN (v : Str) : Str := "***-**-".toList ++ last4Digits v

def maskCC (v : Str) : Str := "****-****-****-".toList ++ last4Digits v

def maskAcct (v : Str) : Str := "****".toList ++ last4Digits v

def maskPhone (v : Str) : Str := "(***) ***-".toList ++ last4Digits v

/-- `v.split('@')[1]`: the segment between the first and second `@`.  When
`v` contains no `@` this JS expression is `undefined`, which the template
literal renders as the string "undefined". -/
def afterFirstAt (v : Str) : Str :=
  match v.dropWhile (fun c => !(c == '@')) with
  | '@' :: rest => rest.takeWhile (fun c => !(c == '@'))
  | _ => "undefined".toList

def maskEmail (v : Str) : Str := v.take 1 ++ "***@".toList ++ afterFirstAt v

def maskDOB (_ : Str) : Str := "**/**/****".toList

/-- The fallback of getMaskFunction: `(v) => '*'.repeat(v.length)`. -/
def defaultMask (v : Str) : Str := List.replicate v.length '*'

structure PIIPattern where
  type : EntityType
  matcher : Option Char → Str → Option Nat
  mask : Str → Str
  confidence : Nat

/-- The pattern table, patterns.ts lines 22-59, in source order. -/
def PII_PATTERNS : List PIIPattern :=
  [⟨.SSN, matchSSN, maskSSN, 95⟩,
   ⟨.CREDIT_CARD, matchCC, maskCC, 95⟩,
   ⟨.ACCOUNT_NUMBER, matchAcct, maskAcct, 80⟩,
   ⟨.PHONE, matchPhone, maskPhone, 85⟩,
   ⟨.EMAIL, matchEmail, maskEmail, 95⟩,
   ⟨.DOB, matchDOB, maskDOB, 70⟩]

/-- patterns.ts lines 99-102. -/
def getMaskFunction (t : EntityType) : Str → Str :=
  match PII_PATTERNS.find? (fun p => p.type == t) with
  | some p => p.mask
  | none => defaultMask

/-- detector.ts lines 501-503. -/
def maskEntity (t : EntityType) (v : Str) : Str := getMaskFunction t v

/-! ### Dedup and regex detection (patterns.ts lines 61-97) -/

/-- The comparator `(a, b) => a.startIndex - b.startIndex` as a relation. -/
def byStart (a b : PatternMatch) : Prop := a.startIndex ≤ b.startIndex

instance : DecidableRel byStart :=
  fun a b => inferInstanceAs (Decidable (a.startIndex ≤ b.startIndex))

instance : IsTotal PatternMatch byStart := ⟨fun a b => Nat.le_total a.startIndex b.startIndex⟩

instance : IsTrans PatternMatch byStart := ⟨fun _ _ _ h h2 => Nat.le_trans h h2⟩

/-- `sort((a, b) => a.startIndex - b.startIndex)`: a stable sort by start
(insertion sort is stable, like the JS engine sort). -/
def sortByStart (ms : List PatternMatch) : List PatternMatch :=
  List.insertionSort byStart ms

/-- The loop of deduplicateMatches, patterns.ts lines 87-95: compare each
element against the last accepted one only. -/
def dedupGo : PatternMatch → List PatternMatch → List PatternMatch
  | last, [] => [last]
  | last, c :: rest =>
    if c.startIndex < last.endIndex then
      if last.confidence < c.confidence then dedupGo c rest else dedupGo last rest
    else last :: dedupGo c rest

/-- patterns.ts lines 82-97. -/
def deduplicateMatches (ms : List PatternMatch) : List PatternMatch :=
  match sortByStart ms with
  | [] => []
  | x :: rest => dedupGo x rest

/-- patterns.ts lines 61-80: run every (filtered) pattern over the text in
table order, then deduplicate. The value is the verbatim matched substring. -/
def detectPIIWithRegex (text : Str) (types : Option (List EntityType)) : List PatternMatch :=
  let patterns : List PIIPattern := match types with
    | some ts => PII_PATTERNS.filter (fun p => p.type ∈ ts)
    | none => PII_PATTERNS
  let found := patterns.flatMap (fun p =>
    (execAll p.matcher text).map (fun il : Nat × Nat =>
      { type := p.type
        value := (text.drop il.1).take il.2
        startIndex := il.1
        endIndex := il.1 + il.2
        confidence := p.confidence }))
  deduplicateMatches found

/-! ### The merge (detector.ts lines 469-496) -/

/-- The three-disjunct overlap test of detector.ts lines 479-481. -/
def overlapsCode (m e : PatternMatch) : Bool :=
  (decide (e.startIndex ≤ m.startIndex) && decide (m.startIndex < e.endIndex)) ||
  (decide (e.startIndex < m.endIndex) && decide (m.endIndex ≤ e.endIndex)) ||
  (decide (m.startIndex ≤ e.startIndex) && decide (e.endIndex ≤ m.endIndex))

/-- One iteration of the merge loop, detector.ts lines 476-493: find the
first accepted entity overlapping `m` (`findIndex`); replace it in place when
`m` has strictly higher confidence, drop `m` otherwise; append `m` at the end
when nothing overlaps. -/
def mergeInsert (m : PatternMatch) : List PatternMatch → List PatternMatch
  | [] => [m]
  | e :: rest =>
    if overlapsCode m e then
      (if e.confidence < m.confidence then m :: rest else e :: rest)
    else e :: mergeInsert m rest

/-- detector.ts lines 469-496 (the `matches.length === 0` early return yields
the same empty result as the fold). -/
def mergeResults (ms : List PatternMatch) : List PatternMatch :=
  (sortByStart ms).foldl (fun res m => mergeInsert m res) []

/-! ### The LLM-backed passes (detector.ts lines 138-404) -/

/-- The parsed form of one finding in a model response.  The `confidence`
field is absent in contextual responses and optional elsewhere. -/
structure RawFinding where
  type : EntityType
  value : Str
  startIndex : Nat
  endIndex : Nat
  confidence : Option Nat
deriving DecidableEq, Repr

/-- One external-service outcome per call site: `Except.error` models a
thrown network/service error or an unparsable response body, `Except.ok`
the successfully parsed JSON array. -/
structure Oracle where
  contextual : Except Unit (List RawFinding)
  unstructured : Except Unit (List RawFinding)
  variations : Except Unit (List RawFinding)

/-- The oracle in which every call to the generative service throws. -/
def failingOracle : Oracle := ⟨.error (), .error (), .error ()⟩

/-- JS `x || d` on an optional numeric confidence (0 is falsy). -/
def jsOr (c : Option Nat) (d : Nat) : Nat :=
  match c with
  | some x => if x == 0 then d else x
  | none => d

def CONTEXTUAL_TYPES : List EntityType :=
  [.SSN, .ACCOUNT_NUMBER, .CREDIT_CARD, .PHONE, .DOB]

/-- detector.ts lines 138-202.  `text` and `alreadyFound` only feed the
prompt; the parsed findings come back with fixed confidence 0.75. -/
def detectContextualPII (text : Str) (alreadyFound : List PatternMatch)
    (types : Option (List EntityType)) (o : Oracle) : List PatternMatch :=
  let _ := text
  let _ := alreadyFound
  let contextualTypes := match types with
    | some ts => ts.filter (fun t => t ∈ CONTEXTUAL_TYPES)
    | none => CONTEXTUAL_TYPES
  if contextualTypes.isEmpty then []
  else
    match o.contextual with
    | .error _ => []
    | .ok l => l.map (fun e => ⟨e.type, e.value, e.startIndex, e.endIndex, 75⟩)

/-- detector.ts lines 207-258: NAME/ADDRESS only; the response is filtered to
the requested unstructured types and `e.confidence || 0.85` is applied. -/
def detectUnstructuredPII (text : Str) (types : Option (List EntityType))
    (o : Oracle) : List PatternMatch :=
  let _ := text
  let unstructuredTypes := match types with
    | some ts => ts.filter (fun t => t == EntityType.NAME || t == EntityType.ADDRESS)
    | none => [EntityType.NAME, EntityType.ADDRESS]
  if unstructuredTypes.isEmpty then []
  else
    match o.unstructured with
    | .error _ => []
    | .ok l =>
      (l.filter (fun e => e.type ∈ unstructuredTypes)).map
        (fun e => ⟨e.type, e.value, e.startIndex, e.endIndex, jsOr e.confidence 85⟩)

/-! ### The retrospective occurrence scan (detector.ts lines 265-308) -/

def toLowerStr (s : Str) : Str := s.map Char.toLower

/-- One step of building the `uniqueValues` map (a JS `Map`, insertion
ordered): keep the highest-confidence entity per lowercased value.  The
source condition `entity.confidence > (uniqueValues.get(key)?.confidence
|| 0)` equals a plain comparison on the stored confidence. -/
def upsertUnique (key : Str) (e : PatternMatch) :
    List (Str × PatternMatch) → List (Str × PatternMatch)
  | [] => [(key, e)]
  | (k, v) :: rest =>
    if k == key then
      (if v.confidence < e.confidence then (k, e) :: rest else (k, v) :: rest)
    else (k, v) :: upsertUnique key e rest

def buildUniqueValues (entities : List PatternMatch) : List (Str × PatternMatch) :=
  entities.foldl (fun acc e => upsertUnique (toLowerStr e.value) e acc) []

/-- The value `v` occurs (case-insensitively) in `text` at offset `i`.  This
is exactly the set of indices produced by the source's `indexOf` loop, which
advances by one character after each hit. -/
def occursAt (text v : Str) (i : Nat) : Bool :=
  toLowerStr ((text.drop i).take v.length) == toLowerStr v

/-- The inner `while` loop of findAllOccurrences for one unique value: every
case-insensitive occurrence whose exact span is not already an entity becomes
a new match with the original casing from the text and the type/confidence of
the representative entity. -/
def scanValue (text : Str) (entities : List PatternMatch) (ent : PatternMatch) :
    List PatternMatch :=
  (List.range text.length).filterMap (fun i =>
    if occursAt text ent.value i
        && !(entities.any (fun e =>
              e.startIndex == i && e.endIndex == i + ent.value.length))
    then some ⟨ent.type, (text.drop i).take ent.value.length, i,
          i + ent.value.length, ent.confidence⟩
    else none)

/-- detector.ts lines 265-308. -/
def findAllOccurrences (text : Str) (entities : List PatternMatch) : List PatternMatch :=
  (buildUniqueValues entities).flatMap (fun kv => scanValue text entities kv.2)

/-- detector.ts lines 314-404: the variation pass runs only when a NAME or
ADDRESS entity exists, and applies `e.confidence || 0.8`. -/
def findEntityVariations (text : Str) (entities : List PatternMatch)
    (o : Oracle) : List PatternMatch :=
  let _ := text
  let nameEntities := entities.filter (fun e => e.type == EntityType.NAME)
  let addressEntities := entities.filter (fun e => e.type == EntityType.ADDRESS)
  if nameEntities.isEmpty && addressEntities.isEmpty then []
  else
    match o.variations with
    | .error _ => []
    | .ok l =>
      l.map (fun e => ⟨e.type, e.value, e.startIndex, e.endIndex, jsOr e.confidence 80⟩)

/-- detector.ts lines 131-133. -/
def detectStructuredPII (text : Str) (types : Option (List EntityType)) : List PatternMatch :=
  detectPIIWithRegex text types

/-- detector.ts lines 413-464: regex pass, the two LLM passes, a merge, the
retrospective occurrence scan and variation pass, and the final merge. -/
def detectAllPII (text : Str) (types : Option (List EntityType)) (o : Oracle) :
    List PatternMatch :=
  let regexMatches := detectStructuredPII text types
  let allMatches := regexMatches ++ detectContextualPII text regexMatches types o
    ++ detectUnstructuredPII text types o
  let mergedSoFar := mergeResults allMatches
  let additionalOccurrences := findAllOccurrences text mergedSoFar
  let variations := findEntityVariations text mergedSoFar o
  mergeResults (mergedSoFar ++ additionalOccurrences ++ variations)

/-! ### The session cache (redaction cache module) -/

/-- CachedRedaction.  `createdAt` is an ISO timestamp string in the source,
compared through `Date.getTime`; it is modelled directly as the timestamp. -/
structure CachedRedaction where
  id : Str
  valueHash : Str
  maskedValue : Str
  type : EntityType
  createdAt : Nat
  usageCount : Nat
  valueLength : Nat
deriving DecidableEq, Repr

def MAX_CACHE_SIZE : Nat := 200

/-- saveCachedRedactions: sort by usage count descending then creation time
descending (JS sort is stable), keep the first MAX_CACHE_SIZE entries. -/
def cacheLE (a b : CachedRedaction) : Prop :=
  b.usageCount < a.usageCount ∨ (b.usageCount = a.usageCount ∧ b.createdAt ≤ a.createdAt)

instance : DecidableRel cacheLE :=
  fun _ _ => inferInstanceAs (Decidable (_ ∨ _))

def saveCachedRedactions (rs : List CachedRedaction) : List CachedRedaction :=
  (List.insertionSort cacheLE rs).take MAX_CACHE_SIZE

/-- One record of an import payload: arbitrary JSON objects, so every field
may be absent. -/
structure ImportRecord where
  id : Option Str
  valueHash : Option Str
  maskedValue : Option Str
  type : Option EntityType
  createdAt : Option Nat
  usageCount : Option Nat
  valueLength : Option Nat
deriving DecidableEq, Repr

/-- JS truthiness of an optional string (absent and "" are falsy). -/
def truthyStr : Option Str → Bool
  | none => false
  | some s => !s.isEmpty

/-- JS truthiness of an optional number (absent and 0 are falsy). -/
def truthyNat : Option Nat → Bool
  | none => false
  | some n => n != 0

/-- The validation of importCache:
`item.valueHash && item.maskedValue && item.type && item.valueLength`.
An entity-type value is always a non-empty string, hence truthy. -/
def recordValid (r : ImportRecord) : Bool :=
  truthyStr r.valueHash && truthyStr r.maskedValue && r.type.isSome
    && truthyNat r.valueLength

/-- The stored form of an accepted import record.  The three fields the
source does not validate are defaulted; no code path proved about below ever
reads a defaulted field. -/
def toCached (r : ImportRecord) : CachedRedaction :=
  ⟨r.id.getD [], r.valueHash.getD [], r.maskedValue.getD [], r.type.getD .CUSTOM,
   r.createdAt.getD 0, r.usageCount.getD 0, r.valueLength.getD 0⟩

/-- exportCache: `JSON.stringify(cache)`, modelled at the parsed-payload
level, so every field is present. -/
def exportCache (cache : List CachedRedaction) : List ImportRecord :=
  cache.map (fun c => ⟨some c.id, some c.valueHash, some c.maskedValue, some c.type,
    some c.createdAt, some c.usageCount, some c.valueLength⟩)

/-- The merge=true branch of importCache for one record: replace the entry
with the same valueHash when the imported usage count is strictly larger,
append otherwise. -/
def mergeImportItem (merged : List CachedRedaction) (r : ImportRecord) :
    List CachedRedaction :=
  let item := toCached r
  match merged.findIdx? (fun c => c.valueHash == item.valueHash) with
  | some i =>
    if (merged.getD i item).usageCount < item.usageCount then merged.set i item else merged
  | none => merged ++ [item]

/-- importCache: validate every record (rejecting the whole payload with an
exception otherwise, which leaves the existing stored cache untouched), then
either merge into the existing entries or replace them, and save. -/
def importCache (payload : List ImportRecord) (merge : Bool)
    (existing : List CachedRedaction) : Except Unit (List CachedRedaction) :=
  if !(payload.all recordValid) then .error ()
  else if merge then
    .ok (saveCachedRedactions (payload.foldl mergeImportItem existing))
  else
    .ok (saveCachedRedactions (payload.map toCached))


/-! ### Derived predicates and auxiliary constructions used by the verification -/

/-- The span invariant of the data model: a non-empty half-open interval. -/
def wfSpan (m : PatternMatch) : Prop := m.startIndex < m.endIndex

/-- Two spans intersect (the general interval-intersection test). -/
def intersects (a b : PatternMatch) : Prop :=
  a.startIndex < b.endIndex ∧ b.startIndex < a.endIndex

instance : DecidablePred wfSpan := fun m => inferInstanceAs (Decidable (_ < _))

instance (a b : PatternMatch) : Decidable (intersects a b) :=
  inferInstanceAs (Decidable (_ ∧ _))

def matcherOK (f : Option Char → Str → Option Nat) : Prop :=
  ∀ prev s len, f prev s = some len → 1 ≤ len ∧ len ≤ s.length

/-- The well-formedness invariant of the data model: a valid span into the
text whose value is the verbatim substring at that span. -/
def wfVerbatim (text : Str) (m : PatternMatch) : Prop :=
  m.startIndex < m.endIndex ∧ m.endIndex ≤ text.length ∧
    m.value = (text.drop m.startIndex).take (m.endIndex - m.startIndex)

/-- Hypothesis on external responses: every parsed finding has a well-formed
span and a non-empty value. -/
def oracleSpansOK (o : Oracle) : Prop :=
  (∀ l, o.contextual = .ok l → ∀ e ∈ l, e.startIndex < e.endIndex ∧ e.value ≠ []) ∧
    (∀ l, o.unstructured = .ok l → ∀ e ∈ l, e.startIndex < e.endIndex ∧ e.value ≠ []) ∧
    (∀ l, o.variations = .ok l → ∀ e ∈ l, e.startIndex < e.endIndex ∧ e.value ≠ [])

/-- Hypothesis for the amended C5: every parsed external finding is itself
well-formed for the text, with its value the verbatim substring at its span. -/
def oracleVerbatim (text : Str) (o : Oracle) : Prop :=
  (∀ l, o.contextual = .ok l → ∀ e ∈ l, e.startIndex < e.endIndex ∧
      e.endIndex ≤ text.length ∧
      e.value = (text.drop e.startIndex).take (e.endIndex - e.startIndex)) ∧
    (∀ l, o.unstructured = .ok l → ∀ e ∈ l, e.startIndex < e.endIndex ∧
      e.endIndex ≤ text.length ∧
      e.value = (text.drop e.startIndex).take (e.endIndex - e.startIndex)) ∧
    (∀ l, o.variations = .ok l → ∀ e ∈ l, e.startIndex < e.endIndex ∧
      e.endIndex ≤ text.length ∧
      e.value = (text.drop e.startIndex).take (e.endIndex - e.startIndex))

def digitChar (n : Nat) : Char := Char.ofNat (48 + n)

/-- A number rendered as exactly two decimal digit characters. -/
def twoDigits (n : Nat) : Str := [digitChar (n / 10), digitChar (n % 10)]

/-- A number rendered as exactly four decimal digit characters. -/
def fourDigits (n : Nat) : Str :=
  [digitChar (n / 1000), digitChar (n / 100 % 10), digitChar (n / 10 % 10),
   digitChar (n % 10)]

/-- A date written in the numeric two-digit MM/DD/YYYY format. -/
def dateMDY (m d y : Nat) : Str :=
  twoDigits m ++ '/' :: twoDigits d ++ '/' :: fourDigits y

end Redaction

namespace Redaction

/-! ## Properties of spans and of the merge -/

theorem intersects_comm {a b : PatternMatch} : intersects a b ↔ intersects b a := by
  unfold intersects
  exact and_comm

/-- For well-formed spans, the three-disjunct overlap test of the source is
the general interval-intersection test. -/
theorem overlapsCode_iff {m e : PatternMatch} (hm : wfSpan m) (he : wfSpan e) :
    overlapsCode m e = true ↔ intersects m e := by
  unfold wfSpan at hm he
  simp only [overlapsCode, intersects, Bool.or_eq_true, Bool.and_eq_true, decide_eq_true_eq]
  omega

theorem sortByStart_perm (ms : List PatternMatch) : List.Perm (sortByStart ms) ms :=
  List.perm_insertionSort byStart ms

theorem mem_sortByStart {x : PatternMatch} {ms : List PatternMatch} :
    x ∈ sortByStart ms ↔ x ∈ ms :=
  List.mem_insertionSort byStart

theorem sortByStart_sorted (ms : List PatternMatch) : (sortByStart ms).Sorted byStart :=
  List.sorted_insertionSort byStart ms

theorem sortByStart_eq_self {ms : List PatternMatch} (h : ms.Sorted byStart) :
    sortByStart ms = ms :=
  List.Sorted.insertionSort_eq h

/-! ### mergeInsert -/

theorem mem_mergeInsert {x m : PatternMatch} :
    ∀ {l : List PatternMatch}, x ∈ mergeInsert m l → x ∈ l ∨ x = m := by
  intro l
  induction l with
  | nil => simp [mergeInsert]
  | cons e rest ih =>
    simp only [mergeInsert]
    split
    · split <;> rename_i hconf <;> intro hx
      · rcases List.mem_cons.1 hx with h | h
        · exact Or.inr h
        · exact Or.inl (List.mem_cons_of_mem _ h)
      · exact Or.inl hx
    · intro hx
      rcases List.mem_cons.1 hx with h | h
      · exact Or.inl (h ▸ List.mem_cons_self _ _)
      · rcases ih h with h2 | h2
        · exact Or.inl (List.mem_cons_of_mem _ h2)
        · exact Or.inr h2

/-- When nothing in the accepted list overlaps `m`, the loop appends it. -/
theorem mergeInsert_of_no_overlap {m : PatternMatch} :
    ∀ {l : List PatternMatch}, (∀ e ∈ l, overlapsCode m e = false) →
      mergeInsert m l = l ++ [m] := by
  intro l
  induction l with
  | nil => simp [mergeInsert]
  | cons e rest ih =>
    intro h
    have he := h e (List.mem_cons_self _ _)
    simp only [mergeInsert, he, Bool.false_eq_true, if_false, List.cons_append,
      List.cons.injEq, true_and]
    exact ih fun x hx => h x (List.mem_cons_of_mem _ hx)

/-- An accepted entity that does not overlap the processed match survives. -/
theorem mergeInsert_preserves {x m : PatternMatch} :
    ∀ {l : List PatternMatch}, x ∈ l → overlapsCode m x = false →
      x ∈ mergeInsert m l := by
  intro l
  induction l with
  | nil => simp
  | cons e rest ih =>
    intro hx hno
    simp only [mergeInsert]
    split
    · rename_i hov
      have hxe : x ≠ e := by
        intro h
        rw [h] at hno
        rw [hno] at hov
        exact Bool.false_ne_true hov
      have hxr : x ∈ rest := by
        rcases List.mem_cons.1 hx with h | h
        · exact absurd h hxe
        · exact h
      split
      · exact List.mem_cons_of_mem _ hxr
      · exact List.mem_cons_of_mem _ hxr
    · rcases List.mem_cons.1 hx with h | h
      · exact h ▸ List.mem_cons_self _ _
      · exact List.mem_cons_of_mem _ (ih h hno)

/-- Processing a match whose only possible overlaps in the accepted list are
itself leaves it (or puts it) in the list. -/
theorem mem_mergeInsert_self {m : PatternMatch} :
    ∀ {l : List PatternMatch}, (∀ e ∈ l, overlapsCode m e = true → e = m) →
      m ∈ mergeInsert m l := by
  intro l
  induction l with
  | nil => simp [mergeInsert]
  | cons e rest ih =>
    intro h
    simp only [mergeInsert]
    split
    · rename_i hov
      have he : e = m := h e (List.mem_cons_self _ _) hov
      split
      · exact List.mem_cons_self _ _
      · exact he ▸ List.mem_cons_self _ _
    · exact List.mem_cons_of_mem _ (ih fun x hx => h x (List.mem_cons_of_mem _ hx))

end Redaction

namespace Redaction

/-- One merge step preserves the loop invariant: the accepted list stays
well-formed, pairwise disjoint and sorted, as long as every accepted entity
starts at or before the processed match (which the pre-sorting guarantees). -/
theorem mergeInsert_inv {m : PatternMatch} :
    ∀ {acc : List PatternMatch},
      wfSpan m → (∀ e ∈ acc, wfSpan e) →
      acc.Pairwise (fun a b => ¬ intersects a b) →
      acc.Sorted byStart →
      (∀ e ∈ acc, e.startIndex ≤ m.startIndex) →
      (∀ e ∈ mergeInsert m acc, wfSpan e) ∧
        (mergeInsert m acc).Pairwise (fun a b => ¬ intersects a b) ∧
        (mergeInsert m acc).Sorted byStart := by
  intro acc
  induction acc with
  | nil =>
    intro hm _ _ _ _
    refine ⟨?_, ?_, ?_⟩ <;> simp [mergeInsert, hm]
  | cons e rest ih =>
    intro hm hwf hpw hsort hle
    have he : wfSpan e := hwf e (List.mem_cons_self _ _)
    by_cases hov : overlapsCode m e
    · have hrest : rest = [] := by
        cases rest with
        | nil => rfl
        | cons r rs =>
          exfalso
          have hr : wfSpan r := hwf r (List.mem_cons_of_mem _ (List.mem_cons_self _ _))
          have h1 : intersects m e := (overlapsCode_iff hm he).1 hov
          have h2 : ¬ intersects e r :=
            (List.pairwise_cons.1 hpw).1 r (List.mem_cons_self _ _)
          have h3 : byStart e r :=
            (List.sorted_cons.1 hsort).1 r (List.mem_cons_self _ _)
          have h4 : r.startIndex ≤ m.startIndex :=
            hle r (List.mem_cons_of_mem _ (List.mem_cons_self _ _))
          unfold wfSpan at hm he hr
          unfold intersects at h1 h2
          unfold byStart at h3
          omega
      subst hrest
      simp only [mergeInsert, hov, if_true]
      split <;> exact ⟨by simp [hm, he], by simp, by simp⟩
    · simp only [mergeInsert, hov, if_false]
      have ihres := ih hm (fun x hx => hwf x (List.mem_cons_of_mem _ hx))
        (List.pairwise_cons.1 hpw).2 (List.sorted_cons.1 hsort).2
        (fun x hx => hle x (List.mem_cons_of_mem _ hx))
      refine ⟨?_, ?_, ?_⟩
      · intro x hx
        rcases List.mem_cons.1 hx with h | h
        · exact h ▸ he
        · exact ihres.1 x h
      · refine List.pairwise_cons.2 ⟨?_, ihres.2.1⟩
        intro x hx
        rcases mem_mergeInsert hx with h | h
        · exact (List.pairwise_cons.1 hpw).1 x h
        · subst h
          intro hint
          exact (Bool.eq_false_iff.1 (Bool.not_eq_true _ ▸ by
            simpa using hov)) ((overlapsCode_iff hm he).2 (intersects_comm.1 hint))
      · refine List.sorted_cons.2 ⟨?_, ihres.2.2⟩
        intro x hx
        rcases mem_mergeInsert hx with h | h
        · exact (List.sorted_cons.1 hsort).1 x h
        · exact h ▸ hle e (List.mem_cons_self _ _)

/-- The full merge fold preserves the invariant and only produces entities
drawn from its input. -/
theorem mergeFold_inv :
    ∀ (pending acc : List PatternMatch),
      (∀ x ∈ pending, wfSpan x) → (∀ e ∈ acc, wfSpan e) →
      acc.Pairwise (fun a b => ¬ intersects a b) →
      acc.Sorted byStart →
      pending.Sorted byStart →
      (∀ e ∈ acc, ∀ x ∈ pending, e.startIndex ≤ x.startIndex) →
      (∀ e ∈ pending.foldl (fun res m => mergeInsert m res) acc, wfSpan e) ∧
        (pending.foldl (fun res m => mergeInsert m res) acc).Pairwise
          (fun a b => ¬ intersects a b) ∧
        (pending.foldl (fun res m => mergeInsert m res) acc).Sorted byStart ∧
        (∀ x ∈ pending.foldl (fun res m => mergeInsert m res) acc,
          x ∈ acc ∨ x ∈ pending) := by
  intro pending
  induction pending with
  | nil =>
    intro acc _ h2 h3 h4 _ _
    exact ⟨h2, h3, h4, fun x hx => Or.inl hx⟩
  | cons m p ih =>
    intro acc hp hacc hpw hsort hpsort hle
    have hm : wfSpan m := hp m (List.mem_cons_self _ _)
    have step := mergeInsert_inv hm hacc hpw hsort
      (fun e he => hle e he m (List.mem_cons_self _ _))
    have hle2 : ∀ e ∈ mergeInsert m acc, ∀ x ∈ p, e.startIndex ≤ x.startIndex := by
      intro e he x hx
      rcases mem_mergeInsert he with h | h
      · exact hle e h x (List.mem_cons_of_mem _ hx)
      · exact h ▸ (List.sorted_cons.1 hpsort).1 x hx
    have ihres := ih (mergeInsert m acc) (fun x hx => hp x (List.mem_cons_of_mem _ hx))
      step.1 step.2.1 step.2.2 (List.sorted_cons.1 hpsort).2 hle2
    rw [List.foldl_cons]
    refine ⟨ihres.1, ihres.2.1, ihres.2.2.1, ?_⟩
    intro x hx
    rcases ihres.2.2.2 x hx with h | h
    · rcases mem_mergeInsert h with h2 | h2
      · exact Or.inl h2
      · exact Or.inr (h2 ▸ List.mem_cons_self _ _)
    · exact Or.inr (List.mem_cons_of_mem _ h)

/-- The merge of any well-formed candidate list is well-formed, pairwise
non-intersecting, sorted by start, and a subset of the candidates. -/
theorem mergeResults_props (ms : List PatternMatch) (h : ∀ x ∈ ms, wfSpan x) :
    (∀ e ∈ mergeResults ms, wfSpan e) ∧
      (mergeResults ms).Pairwise (fun a b => ¬ intersects a b) ∧
      (mergeResults ms).Sorted byStart ∧
      (∀ x ∈ mergeResults ms, x ∈ ms) := by
  unfold mergeResults
  have main := mergeFold_inv (sortByStart ms) []
    (fun x hx => h x (mem_sortByStart.1 hx)) (by simp) (by simp) (by simp)
    (sortByStart_sorted ms) (by simp)
  refine ⟨main.1, main.2.1, main.2.2.1, ?_⟩
  intro x hx
  rcases main.2.2.2 x hx with h2 | h2
  · simp at h2
  · exact mem_sortByStart.1 h2

/-- Folding candidates that overlap nothing (neither the accepted list nor
each other) just appends them all in order. -/
theorem foldl_mergeInsert_all_disjoint :
    ∀ (pending acc : List PatternMatch),
      (∀ x ∈ pending, ∀ e ∈ acc, overlapsCode x e = false) →
      pending.Pairwise (fun a b => overlapsCode b a = false) →
      pending.foldl (fun res m => mergeInsert m res) acc = acc ++ pending := by
  intro pending
  induction pending with
  | nil => intro acc _ _; simp
  | cons m p ih =>
    intro acc hcross hpw
    rw [List.foldl_cons,
      mergeInsert_of_no_overlap (hcross m (List.mem_cons_self _ _)),
      ih (acc ++ [m]) ?_ (List.pairwise_cons.1 hpw).2]
    · simp
    · intro x hx e he
      rcases List.mem_append.1 he with h | h
      · exact hcross x (List.mem_cons_of_mem _ hx) e h
      · simp only [List.mem_singleton] at h
        exact h ▸ (List.pairwise_cons.1 hpw).1 x hx

/-- Merging a list that is already well-formed, pairwise disjoint and sorted
returns it unchanged. -/
theorem mergeResults_eq_self {ms : List PatternMatch}
    (hwf : ∀ x ∈ ms, wfSpan x)
    (hpw : ms.Pairwise (fun a b => ¬ intersects a b))
    (hsort : ms.Sorted byStart) :
    mergeResults ms = ms := by
  unfold mergeResults
  rw [sortByStart_eq_self hsort]
  have h1 : ms.Pairwise (fun a b => overlapsCode b a = false) := by
    refine List.Pairwise.imp_of_mem ?_ hpw
    intro a b ha hb hab
    rw [Bool.eq_false_iff]
    intro hov
    exact hab (intersects_comm.1 ((overlapsCode_iff (hwf b hb) (hwf a ha)).1 hov))
  have := foldl_mergeInsert_all_disjoint ms [] (by simp) h1
  simpa using this

/-- A candidate that intersects no other candidate survives any merge. -/
theorem mem_mergeResults_of_isolated {ms : List PatternMatch} {m : PatternMatch}
    (hwf : ∀ x ∈ ms, wfSpan x) (hm : m ∈ ms)
    (hdisj : ∀ x ∈ ms, x ≠ m → ¬ intersects m x) :
    m ∈ mergeResults ms := by
  have hsafe : ∀ x ∈ ms, x ≠ m → overlapsCode x m = false ∧ overlapsCode m x = false := by
    intro x hx hne
    constructor
    · rw [Bool.eq_false_iff]
      intro hov
      exact hdisj x hx hne
        (intersects_comm.1 ((overlapsCode_iff (hwf x hx) (hwf m hm)).1 hov))
    · rw [Bool.eq_false_iff]
      intro hov
      exact hdisj x hx hne ((overlapsCode_iff (hwf m hm) (hwf x hx)).1 hov)
  suffices h : ∀ (pending acc : List PatternMatch),
      (∀ x ∈ pending, x ∈ ms) → (∀ x ∈ acc, x ∈ ms) →
      (m ∈ acc ∨ m ∈ pending) →
      m ∈ pending.foldl (fun res x => mergeInsert x res) acc by
    unfold mergeResults
    exact h (sortByStart ms) [] (fun x hx => mem_sortByStart.1 hx) (by simp)
      (Or.inr (mem_sortByStart.2 hm))
  intro pending
  induction pending with
  | nil =>
    intro acc _ _ hmem
    rcases hmem with h | h
    · simpa using h
    · simp at h
  | cons x p ih =>
    intro acc hpend hacc hmem
    rw [List.foldl_cons]
    have hselfmem : ∀ hacc2 : (∀ y ∈ acc, y ∈ ms), m ∈ mergeInsert m acc := by
      intro hacc2
      apply mem_mergeInsert_self
      intro e he hov
      by_contra hne
      exact absurd hov (by rw [(hsafe e (hacc2 e he) hne).2]; simp)
    refine ih (mergeInsert x acc) (fun y hy => hpend y (List.mem_cons_of_mem _ hy)) ?_ ?_
    · intro y hy
      rcases mem_mergeInsert hy with h | h
      · exact hacc y h
      · exact h ▸ hpend x (List.mem_cons_self _ _)
    · rcases hmem with hin | hin
      · by_cases hxm : x = m
        · subst hxm
          exact Or.inl (hselfmem hacc)
        · exact Or.inl (mergeInsert_preserves hin
            (hsafe x (hpend x (List.mem_cons_self _ _)) hxm).1)
      · rcases List.mem_cons.1 hin with h | h
        · subst h
          exact Or.inl (hselfmem hacc)
        · exact Or.inr h

end Redaction

namespace Redaction

theorem dedupGo_subset :
    ∀ {rest : List PatternMatch} {last x : PatternMatch},
      x ∈ dedupGo last rest → x = last ∨ x ∈ rest := by
  intro rest
  induction rest with
  | nil =>
    intro last x hx
    simp only [dedupGo, List.mem_singleton] at hx
    exact Or.inl hx
  | cons c rs ih =>
    intro last x hx
    simp only [dedupGo] at hx
    split at hx
    · split at hx
      · rcases ih hx with h | h
        · exact Or.inr (h ▸ List.mem_cons_self _ _)
        · exact Or.inr (List.mem_cons_of_mem _ h)
      · rcases ih hx with h | h
        · exact Or.inl h
        · exact Or.inr (List.mem_cons_of_mem _ h)
    · rcases List.mem_cons.1 hx with h | h
      · exact Or.inl h
      · rcases ih h with h2 | h2
        · exact Or.inr (h2 ▸ List.mem_cons_self _ _)
        · exact Or.inr (List.mem_cons_of_mem _ h2)

theorem dedupGo_start_le :
    ∀ {rest : List PatternMatch} {last : PatternMatch},
      rest.Sorted byStart → (∀ b ∈ rest, byStart last b) →
      ∀ x ∈ dedupGo last rest, last.startIndex ≤ x.startIndex := by
  intro rest
  induction rest with
  | nil =>
    intro last _ _ x hx
    simp only [dedupGo, List.mem_singleton] at hx
    exact hx ▸ Nat.le_refl _
  | cons c rs ih =>
    intro last hsort hhead x hx
    have hsort2 := List.sorted_cons.1 hsort
    have hlc : byStart last c := hhead c (List.mem_cons_self _ _)
    simp only [dedupGo] at hx
    split at hx
    · split at hx
      · exact Nat.le_trans hlc (ih hsort2.2 hsort2.1 x hx)
      · exact ih hsort2.2 (fun b hb => hhead b (List.mem_cons_of_mem _ hb)) x hx
    · rcases List.mem_cons.1 hx with h | h
      · exact h ▸ Nat.le_refl _
      · exact Nat.le_trans hlc (ih hsort2.2 hsort2.1 x h)

theorem dedupGo_pairwise :
    ∀ {rest : List PatternMatch} {last : PatternMatch},
      rest.Sorted byStart → (∀ b ∈ rest, byStart last b) →
      (dedupGo last rest).Pairwise (fun a b => ¬ intersects a b) := by
  intro rest
  induction rest with
  | nil =>
    intro last _ _
    simp [dedupGo]
  | cons c rs ih =>
    intro last hsort hhead
    have hsort2 := List.sorted_cons.1 hsort
    simp only [dedupGo]
    split
    · split
      · exact ih hsort2.2 hsort2.1
      · exact ih hsort2.2 (fun b hb => hhead b (List.mem_cons_of_mem _ hb))
    · rename_i hge
      refine List.pairwise_cons.2 ⟨?_, ih hsort2.2 hsort2.1⟩
      intro x hx hint
      have hcx : c.startIndex ≤ x.startIndex := dedupGo_start_le hsort2.2 hsort2.1 x hx
      unfold intersects at hint
      omega

/-- deduplicateMatches: pairwise non-intersecting, drawn from the input, and
well-formed when the input is. -/
theorem deduplicateMatches_props (ms : List PatternMatch) :
    (deduplicateMatches ms).Pairwise (fun a b => ¬ intersects a b) ∧
      (∀ x ∈ deduplicateMatches ms, x ∈ ms) := by
  unfold deduplicateMatches
  cases hs : sortByStart ms with
  | nil => simp
  | cons x rest =>
    have hsorted : (x :: rest).Sorted byStart := hs ▸ sortByStart_sorted ms
    have hparts := List.sorted_cons.1 hsorted
    constructor
    · exact dedupGo_pairwise hparts.2 hparts.1
    · intro y hy
      have : y = x ∨ y ∈ rest := dedupGo_subset hy
      have hmem : y ∈ x :: rest := by
        rcases this with h | h
        · exact h ▸ List.mem_cons_self _ _
        · exact List.mem_cons_of_mem _ h
      exact mem_sortByStart.1 (hs ▸ hmem)

end Redaction

namespace Redaction

/-! ## Bounds of the matchers: a match is non-empty and stays inside the
remaining text. -/

theorem countLeading_le (p : Char → Bool) : ∀ s : Str, countLeading p s ≤ s.length := by
  intro s
  induction s with
  | nil => simp [countLeading]
  | cons c r ih =>
    simp only [countLeading, List.length_cons]
    split
    · omega
    · omega

theorem digitsAt_le {s : Str} {n : Nat} (h : digitsAt s n = true) : n ≤ s.length := by
  unfold digitsAt at h
  rw [Bool.and_eq_true] at h
  obtain ⟨h1, _⟩ := h
  have hlen : (s.take n).length = n := by simpa using h1
  rw [List.length_take] at hlen
  omega

theorem matchSSNsep_bound {t : Str} {v : Nat} (h : matchSSNsep t = some v) :
    v = 11 ∧ 8 ≤ t.length := by
  unfold matchSSNsep at h
  split at h
  · split at h
    · rename_i c g1 g2 c2 s1 s2 s3 s4 rest _
      refine ⟨by injection h with h2; omega, by simp⟩
    · exact absurd h (by simp)
  · exact absurd h (by simp)

theorem matchSSNempty_bound {t : Str} {v : Nat} (h : matchSSNempty t = some v) :
    v = 9 ∧ 6 ≤ t.length := by
  unfold matchSSNempty at h
  split at h
  · split at h
    · refine ⟨by injection h with h2; omega, by simp⟩
    · exact absurd h (by simp)
  · exact absurd h (by simp)

theorem matchSSN_ok : matcherOK matchSSN := by
  intro prev s len h
  unfold matchSSN at h
  split at h
  · split at h
    · rename_i a1 a2 a3 rest _
      rcases horelse : matchSSNsep rest with _ | v
      · rw [horelse] at h
        simp only [Option.orElse] at h
        have hb := matchSSNempty_bound h
        simp only [List.length_cons]
        omega
      · rw [horelse] at h
        simp only [Option.orElse] at h
        injection h with h2
        have hb := matchSSNsep_bound horelse
        simp only [List.length_cons]
        omega
    · exact absurd h (by simp)
  · exact absurd h (by simp)

theorem matchCC_ok : matcherOK matchCC := by
  intro prev s len h
  unfold matchCC at h
  split at h
  · exact absurd h (by simp)
  · split at h
    · split at h
      · split at h
        · rename_i h16
          injection h with h2
          rw [Bool.and_eq_true] at h16
          have := digitsAt_le h16.1
          omega
        · split at h
          · rename_i h13 h16n hnw
            injection h with h2
            have := digitsAt_le h13
            omega
          · exact absurd h (by simp)
      · exact absurd h (by simp)
    · split at h
      · rename_i hc
        injection h with h2
        simp only [Bool.and_eq_true] at hc
        have := digitsAt_le hc.1.2
        omega
      · exact absurd h (by simp)
    · split at h
      · rename_i hc
        injection h with h2
        simp only [Bool.and_eq_true] at hc
        have := digitsAt_le hc.1.2
        omega
      · exact absurd h (by simp)
    · split at h
      · rename_i hc
        injection h with h2
        simp only [Bool.and_eq_true] at hc
        have := digitsAt_le hc.1.2
        omega
      · exact absurd h (by simp)
    · exact absurd h (by simp)

theorem ciStarts_len : ∀ {pat s r : Str}, ciStarts pat s = some r →
    r.length + pat.length = s.length := by
  intro pat
  induction pat with
  | nil =>
    intro s r h
    unfold ciStarts at h
    injection h with h2
    simp [h2]
  | cons p ps ih =>
    intro s r h
    unfold ciStarts at h
    match s with
    | [] => exact absurd h (by simp)
    | c :: cs =>
      simp only at h
      split at h
      · have := ih h
        simp only [List.length_cons]
        omega
      · exact absurd h (by simp)

theorem dropWS_le (s : Str) : (dropWS s).length ≤ s.length :=
  (List.dropWhile_sublist _).length_le

theorem optChar_le (c : Char) (s : Str) : (optChar c s).length ≤ s.length := by
  unfold optChar
  split
  · split
    · simp
    · simp
  · simp

theorem acctNoise_le (s : Str) : (acctNoise s).length ≤ s.length := by
  unfold acctNoise
  split
  · rename_i r hr
    have := ciStarts_len hr
    omega
  · split
    · simp
    · split
      · rename_i r hr
        have h1 := ciStarts_len hr
        have h2 := optChar_le '.' r
        omega
      · simp

theorem matchAcctDigits_bound {s : Str} {n : Nat} (h : matchAcctDigits s = some n) :
    8 ≤ n ∧ n ≤ s.length := by
  simp only [matchAcctDigits] at h
  split at h
  · rename_i hc
    injection h with h2
    subst h2
    simp only [Bool.and_eq_true, decide_eq_true_eq] at hc
    exact ⟨hc.1.1, countLeading_le _ _⟩
  · exact absurd h (by simp)

theorem matchAcctPref_bound {s : Str} {len : Nat} (h : matchAcctPref s = some len) :
    1 ≤ len ∧ len ≤ s.length := by
  unfold matchAcctPref at h
  split at h
  · exact absurd h (by simp)
  · rename_i r1 hr1
    simp only at h
    split at h
    · rename_i n hn
      injection h with h2
      have hb := matchAcctDigits_bound hn
      have hlen1 := ciStarts_len hr1
      have h5 : (dropWS (optChar ':' (acctNoise (dropWS r1)))).length ≤ r1.length := by
        have a1 := dropWS_le r1
        have a2 := acctNoise_le (dropWS r1)
        have a3 := optChar_le ':' (acctNoise (dropWS r1))
        have a4 := dropWS_le (optChar ':' (acctNoise (dropWS r1)))
        omega
      simp only [List.length_cons] at hlen1 ⊢
      omega
    · exact absurd h (by simp)

theorem matchAcct_ok : matcherOK matchAcct := by
  intro prev s len h
  unfold matchAcct at h
  split at h
  · exact absurd h (by simp)
  · rcases hp : matchAcctPref s with _ | v
    · rw [hp] at h
      simp only [Option.orElse] at h
      have hb := matchAcctDigits_bound h
      have := countLeading_le Char.isDigit s
      omega
    · rw [hp] at h
      simp only [Option.orElse] at h
      injection h with h2
      have := matchAcctPref_bound hp
      omega

end Redaction

namespace Redaction

theorem mem_optCharOpts_le {p : Char → Bool} {s r : Str} (h : r ∈ optCharOpts p s) :
    r.length ≤ s.length := by
  unfold optCharOpts at h
  split at h
  · split at h
    · simp only [List.mem_cons, List.not_mem_nil, or_false] at h
      rcases h with h | h <;> subst h <;> simp only [List.length_cons] <;> omega
    · simp only [List.mem_singleton] at h
      subst h
      exact Nat.le_refl _
  · simp only [List.mem_singleton] at h
    subst h
    exact Nat.le_refl _

theorem mem_phoneCountryOpts_le {s t : Str} (h : t ∈ phoneCountryOpts s) :
    t.length ≤ s.length := by
  unfold phoneCountryOpts at h
  simp only [List.mem_append] at h
  rcases h with (h | h) | h
  · split at h
    · rename_i r
      have := mem_optCharOpts_le h
      simp only [List.length_cons]
      omega
    · simp at h
  · split at h
    · rename_i r
      have := mem_optCharOpts_le h
      simp only [List.length_cons]
      omega
    · simp at h
  · simp only [List.mem_singleton] at h
    simp [h]

theorem mem_phoneAreaCore_le {t r : Str} (h : r ∈ phoneAreaCore t) :
    r.length ≤ t.length := by
  unfold phoneAreaCore at h
  split at h
  · split at h
    · simp only [List.mem_append] at h
      rcases h with h | h
      · split at h
        · rename_i r2
          have := mem_optCharOpts_le h
          simp only [List.length_cons]
          omega
        · simp at h
      · rename_i r0
        have := mem_optCharOpts_le h
        simp only [List.length_cons]
        omega
    · simp at h
  · simp at h

theorem mem_phoneAreaOpts_le {s t : Str} (h : t ∈ phoneAreaOpts s) :
    t.length ≤ s.length := by
  unfold phoneAreaOpts at h
  simp only [List.mem_append] at h
  rcases h with (h | h) | h
  · split at h
    · rename_i r
      have := mem_phoneAreaCore_le h
      simp only [List.length_cons]
      omega
    · simp at h
  · exact mem_phoneAreaCore_le h
  · simp only [List.mem_singleton] at h
    simp [h]

theorem phoneLast4_len {u r : Str} (h : phoneLast4 u = some r) :
    r.length + 4 = u.length := by
  unfold phoneLast4 at h
  split at h
  · split at h
    · injection h with h2
      subst h2
      simp
    · exact absurd h (by simp)
  · exact absurd h (by simp)

theorem mem_phoneCore_le {t r : Str} (h : r ∈ phoneCore t) :
    r.length + 7 ≤ t.length := by
  unfold phoneCore at h
  split at h
  · split at h
    · rcases List.mem_filterMap.1 h with ⟨u, hu, heq⟩
      have h1 := phoneLast4_len heq
      have h2 := mem_optCharOpts_le hu
      simp only [List.length_cons]
      omega
    · simp at h
  · simp at h

theorem matchPhone_ok : matcherOK matchPhone := by
  intro prev s len h
  unfold matchPhone at h
  split at h
  · exact absurd h (by simp)
  · split at h
    · rename_i rest tail heq
      injection h with h2
      have hmem : rest ∈ (((phoneCountryOpts s).flatMap phoneAreaOpts).flatMap phoneCore) := by
        have : rest ∈ (((phoneCountryOpts s).flatMap phoneAreaOpts).flatMap phoneCore).filter
            (fun r => !(isWordOpt r.head?)) := by
          rw [heq]
          exact List.mem_cons_self _ _
        exact List.mem_of_mem_filter this
      rcases List.mem_flatMap.1 hmem with ⟨t2, ht2, hcore⟩
      rcases List.mem_flatMap.1 ht2 with ⟨t1, ht1, harea⟩
      have b1 := mem_phoneCore_le hcore
      have b2 := mem_phoneAreaOpts_le harea
      have b3 := mem_phoneCountryOpts_le ht1
      omega
    · exact absurd h (by simp)

theorem emailTldGo_le {tld : Str} : ∀ {k j : Nat}, emailTldGo tld k = some j → j ≤ k := by
  intro k
  induction k with
  | zero =>
    intro j h
    exact absurd h (by simp [emailTldGo])
  | succ k ih =>
    intro j h
    unfold emailTldGo at h
    split at h
    · injection h with h2
      omega
    · exact Nat.le_succ_of_le (ih h)

theorem emailDomGo_le {t : Str} : ∀ {k dlen : Nat}, emailDomGo t k = some dlen →
    dlen ≤ t.length := by
  intro k
  induction k with
  | zero =>
    intro dlen h
    exact absurd h (by simp [emailDomGo])
  | succ k ih =>
    intro dlen h
    unfold emailDomGo at h
    split at h
    · rename_i j hin
      injection h with h2
      split at hin
      · rename_i hdot
        have hj := emailTldGo_le hin
        have hcount := countLeading_le isTldChar (t.drop (k + 2))
        have hdrop : (t.drop (k + 2)).length = t.length - (k + 2) := List.length_drop _ _
        have hlt : k + 1 < t.length := by
          by_contra hge
          have : t[k + 1]? = none := List.getElem?_eq_none (by omega)
          rw [this] at hdot
          simp at hdot
        omega
      · exact absurd hin (by simp)
    · exact ih h

theorem matchEmail_ok : matcherOK matchEmail := by
  intro prev s len h
  simp only [matchEmail] at h
  split at h
  · exact absurd h (by simp)
  · split at h
    · exact absurd h (by simp)
    · split at h
      · rename_i t heq
        split at h
        · rename_i dlen hdom
          injection h with h2
          have hnL := countLeading_le isLocalChar s
          have hdlen := emailDomGo_le hdom
          have hlen : s.length - countLeading isLocalChar s = t.length + 1 := by
            rw [← List.length_drop, heq]
            simp
          omega
        · exact absurd h (by simp)
      · exact absurd h (by simp)

theorem mem_monthOpts_le {s r : Str} (h : r ∈ monthOpts s) : r.length + 1 ≤ s.length := by
  unfold monthOpts at h
  simp only [List.mem_append] at h
  rcases h with (h | h) | h
  · split at h
    · split at h
      · simp only [List.mem_singleton] at h
        subst h
        simp
      · simp at h
    · simp at h
  · split at h
    · split at h
      · simp only [List.mem_singleton] at h
        subst h
        simp
      · simp at h
    · simp at h
  · split at h
    · split at h
      · simp only [List.mem_singleton] at h
        subst h
        simp
      · simp at h
    · simp at h

theorem mem_dayOpts_le {s r : Str} (h : r ∈ dayOpts s) : r.length + 1 ≤ s.length := by
  unfold dayOpts at h
  simp only [List.mem_append] at h
  rcases h with ((h | h) | h) | h <;>
  · split at h
    · split at h
      · simp only [List.mem_singleton] at h
        subst h
        simp
      · simp at h
    · simp at h

theorem dobSep_len {s r : Str} (h : dobSep s = some r) : r.length + 1 = s.length := by
  unfold dobSep at h
  split at h
  · split at h
    · injection h with h2
      subst h2
      simp
    · exact absurd h (by simp)
  · exact absurd h (by simp)

theorem yearTake_len {s r : Str} (h : yearTake s = some r) : r.length + 4 = s.length := by
  unfold yearTake at h
  split at h
  · split at h
    · injection h with h2
      subst h2
      simp
    · exact absurd h (by simp)
  · split at h
    · injection h with h2
      subst h2
      simp
    · exact absurd h (by simp)
  · exact absurd h (by simp)

theorem matchDOB_ok : matcherOK matchDOB := by
  intro prev s len h
  unfold matchDOB at h
  split at h
  · exact absurd h (by simp)
  · split at h
    · rename_i rest tail heq
      injection h with h2
      have hmem : rest ∈ (((monthOpts s).filterMap dobSep).flatMap
          (fun r => (dayOpts r).filterMap dobSep)).filterMap yearTake := by
        have : rest ∈ ((((monthOpts s).filterMap dobSep).flatMap
            (fun r => (dayOpts r).filterMap dobSep)).filterMap yearTake).filter
            (fun r => !(isWordOpt r.head?)) := by
          rw [heq]
          exact List.mem_cons_self _ _
        exact List.mem_of_mem_filter this
      rcases List.mem_filterMap.1 hmem with ⟨u, hu, hyear⟩
      rcases List.mem_flatMap.1 hu with ⟨r2, hr2, hu2⟩
      rcases List.mem_filterMap.1 hr2 with ⟨r1, hr1, hsep1⟩
      rcases List.mem_filterMap.1 hu2 with ⟨r3, hr3, hsep3⟩
      have b1 := yearTake_len hyear
      have b2 := dobSep_len hsep3
      have b3 := mem_dayOpts_le hr3
      have b4 := dobSep_len hsep1
      have b5 := mem_monthOpts_le hr1
      omega
    · exact absurd h (by simp)

/-- Every pattern in the table has a sound matcher. -/
theorem PII_PATTERNS_ok : ∀ p ∈ PII_PATTERNS, matcherOK p.matcher := by
  intro p hp
  simp only [PII_PATTERNS, List.mem_cons, List.not_mem_nil, or_false] at hp
  rcases hp with h | h | h | h | h | h <;> subst h
  · exact matchSSN_ok
  · exact matchCC_ok
  · exact matchAcct_ok
  · exact matchPhone_ok
  · exact matchEmail_ok
  · exact matchDOB_ok

end Redaction

namespace Redaction

/-- Every emitted match starts at or after the scan position, is non-empty,
and ends within the text. -/
theorem execGo_bounds {f : Option Char → Str → Option Nat} (hf : matcherOK f) :
    ∀ (fuel : Nat) (prev : Option Char) (i : Nat) (s : Str),
      ∀ pl ∈ execGo f fuel prev i s, i ≤ pl.1 ∧ 1 ≤ pl.2 ∧ pl.1 + pl.2 ≤ i + s.length := by
  intro fuel
  induction fuel with
  | zero =>
    intro prev i s pl hpl
    simp [execGo] at hpl
  | succ fuel ih =>
    intro prev i s pl hpl
    match s with
    | [] => simp [execGo] at hpl
    | c :: rest =>
      simp only [execGo] at hpl
      split at hpl
      · rename_i len hlen
        have hb := hf prev (c :: rest) len hlen
        rcases List.mem_cons.1 hpl with h | h
        · subst h
          simp only [List.length_cons] at hb ⊢
          omega
        · have hrec := ih _ (i + len) ((c :: rest).drop len) pl h
          have hdl : ((c :: rest).drop len).length = (c :: rest).length - len :=
            List.length_drop _ _
          simp only [List.length_cons] at hb hdl ⊢
          omega
      · have hrec := ih (some c) (i + 1) rest pl hpl
        simp only [List.length_cons]
        omega

theorem wfVerbatim.wf {text : Str} {m : PatternMatch} (h : wfVerbatim text m) :
    wfSpan m := h.1

theorem wfVerbatim.value_ne {text : Str} {m : PatternMatch} (h : wfVerbatim text m) :
    m.value ≠ [] := by
  obtain ⟨h1, h2, h3⟩ := h
  intro hval
  rw [hval] at h3
  have := congrArg List.length h3
  simp only [List.length_nil, List.length_take, List.length_drop] at this
  omega

/-- Every regex hit is a verbatim, in-bounds, non-empty span. -/
theorem detectPIIWithRegex_wfVerbatim (text : Str) (types : Option (List EntityType)) :
    ∀ m ∈ detectPIIWithRegex text types, wfVerbatim text m := by
  intro m hm
  simp only [detectPIIWithRegex] at hm
  have hsub := (deduplicateMatches_props _).2 m hm
  rcases List.mem_flatMap.1 hsub with ⟨p, hp, hm2⟩
  rcases List.mem_map.1 hm2 with ⟨il, hil, heq⟩
  have hpmem : p ∈ PII_PATTERNS := by
    split at hp
    · exact List.mem_of_mem_filter hp
    · exact hp
  have hOK := PII_PATTERNS_ok p hpmem
  have hb := execGo_bounds hOK (text.length + 1) none 0 text il hil
  subst heq
  refine ⟨by simp; omega, by simp; omega, ?_⟩
  simp only [Nat.add_sub_cancel_left]

theorem toLowerStr_length (s : Str) : (toLowerStr s).length = s.length :=
  List.length_map s Char.toLower

/-- A case-insensitive occurrence of a non-empty value fits inside the text. -/
theorem occursAt_bound {text v : Str} {i : Nat} (hne : v ≠ [])
    (h : occursAt text v i = true) : i + v.length ≤ text.length := by
  unfold occursAt at h
  have heq : toLowerStr ((text.drop i).take v.length) = toLowerStr v := by
    simpa using h
  have hlen := congrArg List.length heq
  rw [toLowerStr_length, toLowerStr_length, List.length_take, List.length_drop] at hlen
  have hv : 0 < v.length := List.length_pos.2 hne
  omega

theorem mem_upsertUnique {key : Str} {e : PatternMatch} :
    ∀ {acc : List (Str × PatternMatch)} {kv : Str × PatternMatch},
      kv ∈ upsertUnique key e acc → kv ∈ acc ∨ kv.2 = e := by
  intro acc
  induction acc with
  | nil =>
    intro kv h
    simp only [upsertUnique, List.mem_singleton] at h
    exact Or.inr (by rw [h])
  | cons a rest ih =>
    intro kv h
    simp only [upsertUnique] at h
    split at h
    · split at h
      · rcases List.mem_cons.1 h with h2 | h2
        · exact Or.inr (by rw [h2])
        · exact Or.inl (List.mem_cons_of_mem _ h2)
      · exact Or.inl h
    · rcases List.mem_cons.1 h with h2 | h2
      · exact Or.inl (h2 ▸ List.mem_cons_self _ _)
      · rcases ih h2 with h3 | h3
        · exact Or.inl (List.mem_cons_of_mem _ h3)
        · exact Or.inr h3

/-- Every representative stored in the uniqueValues map is one of the
entities. -/
theorem mem_buildUniqueValues {es : List PatternMatch} {kv : Str × PatternMatch}
    (h : kv ∈ buildUniqueValues es) : kv.2 ∈ es := by
  suffices hgen : ∀ (l : List PatternMatch) (acc : List (Str × PatternMatch))
      (es0 : List PatternMatch),
      (∀ a ∈ acc, a.2 ∈ es0) → (∀ x ∈ l, x ∈ es0) →
      ∀ a ∈ l.foldl (fun acc e => upsertUnique (toLowerStr e.value) e acc) acc, a.2 ∈ es0 by
    exact hgen es [] es (by simp) (fun x hx => hx) kv h
  intro l
  induction l with
  | nil =>
    intro acc es0 hacc _ a ha
    exact hacc a ha
  | cons e rest ih =>
    intro acc es0 hacc hsub a ha
    rw [List.foldl_cons] at ha
    refine ih _ es0 ?_ (fun x hx => hsub x (List.mem_cons_of_mem _ hx)) a ha
    intro b hb
    rcases mem_upsertUnique hb with h2 | h2
    · exact hacc b h2
    · exact h2 ▸ hsub e (List.mem_cons_self _ _)

/-- Every retrospective occurrence is a verbatim, in-bounds, non-empty span,
as long as the already-found values are non-empty. -/
theorem findAllOccurrences_wfVerbatim {text : Str} {entities : List PatternMatch}
    (h : ∀ e ∈ entities, e.value ≠ []) :
    ∀ x ∈ findAllOccurrences text entities, wfVerbatim text x := by
  intro x hx
  unfold findAllOccurrences at hx
  rcases List.mem_flatMap.1 hx with ⟨kv, hkv, hscan⟩
  have hent : kv.2 ∈ entities := mem_buildUniqueValues hkv
  have hne : kv.2.value ≠ [] := h _ hent
  unfold scanValue at hscan
  rcases List.mem_filterMap.1 hscan with ⟨i, _, hcond⟩
  split at hcond
  · rename_i hc
    injection hcond with hcond2
    subst hcond2
    rw [Bool.and_eq_true] at hc
    have hocc := occursAt_bound hne hc.1
    have hv : 0 < kv.2.value.length := List.length_pos.2 hne
    exact ⟨by simp; omega, by simp; omega, by simp only [Nat.add_sub_cancel_left]⟩
  · exact absurd hcond (by simp)



theorem detectContextualPII_ok {text : Str} {af : List PatternMatch}
    {types : Option (List EntityType)} {o : Oracle} (ho : oracleSpansOK o) :
    ∀ m ∈ detectContextualPII text af types o, wfSpan m ∧ m.value ≠ [] := by
  intro m hm
  unfold detectContextualPII at hm
  rcases hoc : o.contextual with err | l <;> rw [hoc] at hm
  · rcases types with _ | ts <;> simp at hm
  · rcases types with _ | ts <;>
    · simp at hm
      obtain ⟨-, e, he, heq⟩ := hm
      rw [← heq]
      exact ho.1 l hoc e he

theorem detectUnstructuredPII_ok {text : Str} {types : Option (List EntityType)}
    {o : Oracle} (ho : oracleSpansOK o) :
    ∀ m ∈ detectUnstructuredPII text types o, wfSpan m ∧ m.value ≠ [] := by
  intro m hm
  unfold detectUnstructuredPII at hm
  rcases hoc : o.unstructured with err | l <;> rw [hoc] at hm
  · rcases types with _ | ts <;> simp at hm
  · rcases types with _ | ts
    · simp at hm
      obtain ⟨e, ⟨he, -⟩, heq⟩ := hm
      rw [← heq]
      exact ho.2.1 l hoc e he
    · simp at hm
      obtain ⟨-, e, ⟨he, -⟩, heq⟩ := hm
      rw [← heq]
      exact ho.2.1 l hoc e he

theorem findEntityVariations_ok {text : Str} {entities : List PatternMatch}
    {o : Oracle} (ho : oracleSpansOK o) :
    ∀ m ∈ findEntityVariations text entities o, wfSpan m ∧ m.value ≠ [] := by
  intro m hm
  unfold findEntityVariations at hm
  rcases hoc : o.variations with err | l <;> rw [hoc] at hm
  · simp at hm
  · simp at hm
    obtain ⟨-, e, he, heq⟩ := hm
    rw [← heq]
    exact ho.2.2 l hoc e he

/-- Every candidate that reaches the final merge of detectAllPII has a
well-formed span and a non-empty value. -/
theorem detectAllPII_inputs_ok (text : Str) (types : Option (List EntityType))
    (o : Oracle) (ho : oracleSpansOK o) :
    ∀ m ∈ (mergeResults (detectStructuredPII text types
          ++ detectContextualPII text (detectStructuredPII text types) types o
          ++ detectUnstructuredPII text types o)),
      wfSpan m ∧ m.value ≠ [] := by
  intro m hm
  have hall : ∀ x ∈ (detectStructuredPII text types
      ++ detectContextualPII text (detectStructuredPII text types) types o
      ++ detectUnstructuredPII text types o), wfSpan x ∧ x.value ≠ [] := by
    intro x hx
    rcases List.mem_append.1 hx with h | h
    · rcases List.mem_append.1 h with h2 | h2
      · have := detectPIIWithRegex_wfVerbatim text types x h2
        exact ⟨this.wf, this.value_ne⟩
      · exact detectContextualPII_ok ho x h2
    · exact detectUnstructuredPII_ok ho x h
  exact hall m ((mergeResults_props _ (fun x hx => (hall x hx).1)).2.2.2 m hm)

end Redaction

namespace Redaction

/-! ## Claim theorems -/

/-- C1: for every input list of candidate entities whose spans are well-formed,
the entity list returned by the merge step (mergeResults, and likewise
deduplicateMatches inside PatternMatcher) is pairwise non-overlapping: for any
two distinct returned entities, their half-open spans do not intersect;
consequently the final entity set returned by detectAllPII (for any text, any
type filter, and any external responses whose findings have well-formed spans
and non-empty values) is pairwise non-overlapping. -/
theorem c1_merge_pairwise_nonoverlapping
    (ms : List PatternMatch) (text : Str) (types : Option (List EntityType))
    (o : Oracle) (hms : ∀ m ∈ ms, wfSpan m) (ho : oracleSpansOK o) :
    (mergeResults ms).Pairwise (fun a b => ¬ intersects a b) ∧
      (deduplicateMatches ms).Pairwise (fun a b => ¬ intersects a b) ∧
      (detectAllPII text types o).Pairwise (fun a b => ¬ intersects a b) := by
  refine ⟨(mergeResults_props ms hms).2.1, (deduplicateMatches_props ms).1, ?_⟩
  have hin := detectAllPII_inputs_ok text types o ho
  simp only [detectAllPII]
  refine (mergeResults_props _ ?_).2.1
  intro x hx
  rcases List.mem_append.1 hx with h | h
  · rcases List.mem_append.1 h with h2 | h2
    · exact (hin x h2).1
    · exact (findAllOccurrences_wfVerbatim (fun e he => (hin e he).2) x h2).wf
  · exact (findEntityVariations_ok ho x h).1

/-- C2: when the ACCOUNT_NUMBER candidate "123456789" at span 5..14 with
confidence 0.80 and the overlapping SSN candidate "123-45-6789" at span 5..16
with confidence 0.75 are merged (in either arrival order), the result contains
only the ACCOUNT_NUMBER entity: overlap resolution compares confidence alone
and never prefers the more specific PII type. -/
theorem c2_confidence_beats_specificity :
    mergeResults [⟨.ACCOUNT_NUMBER, "123456789".toList, 5, 14, 80⟩,
        ⟨.SSN, "123-45-6789".toList, 5, 16, 75⟩] =
      [⟨.ACCOUNT_NUMBER, "123456789".toList, 5, 14, 80⟩] ∧
    mergeResults [⟨.SSN, "123-45-6789".toList, 5, 16, 75⟩,
        ⟨.ACCOUNT_NUMBER, "123456789".toList, 5, 14, 80⟩] =
      [⟨.ACCOUNT_NUMBER, "123456789".toList, 5, 14, 80⟩] := by
  decide

/-- C4: merge idempotence.  For every well-formed candidate list, the output
of mergeResults is a fixed point: merging it again returns the identical
entity list. -/
theorem c4_merge_idempotent (ms : List PatternMatch) (h : ∀ m ∈ ms, wfSpan m) :
    mergeResults (mergeResults ms) = mergeResults ms := by
  obtain ⟨hwf, hpw, hsort, -⟩ := mergeResults_props ms h
  exact mergeResults_eq_self hwf hpw hsort

/-- C3 (amended): when every call to the external generative text service
throws, detection still completes: each LLM-backed pass returns the empty
list, detectAllPII equals the merge of the pre-merged PatternMatcher hits
with their retrospective occurrences, and every PatternMatcher hit that
overlaps no retrospective occurrence appears unchanged in the final result.
(The original claim, that EVERY PatternMatcher hit survives unchanged, is
refuted by `c3_counterexample`: a higher-confidence retrospective occurrence
of another value can overlap a hit and displace it in the final merge.) -/
theorem c3_llm_failure_degradation (text : Str) (types : Option (List EntityType)) :
    detectContextualPII text (detectStructuredPII text types) types failingOracle = [] ∧
      detectUnstructuredPII text types failingOracle = [] ∧
      findEntityVariations text (mergeResults (detectStructuredPII text types))
        failingOracle = [] ∧
      detectAllPII text types failingOracle =
        mergeResults (mergeResults (detectStructuredPII text types) ++
          findAllOccurrences text (mergeResults (detectStructuredPII text types))) ∧
      (∀ m ∈ mergeResults (detectStructuredPII text types),
        (∀ x ∈ findAllOccurrences text (mergeResults (detectStructuredPII text types)),
          ¬ intersects m x) →
        m ∈ detectAllPII text types failingOracle) := by
  have hz1 : detectContextualPII text (detectStructuredPII text types) types
      failingOracle = [] := by
    simp [detectContextualPII, failingOracle]
  have hz2 : detectUnstructuredPII text types failingOracle = [] := by
    simp [detectUnstructuredPII, failingOracle]
  have hz3 : findEntityVariations text (mergeResults (detectStructuredPII text types))
      failingOracle = [] := by
    simp [findEntityVariations, failingOracle]
  have heq : detectAllPII text types failingOracle =
      mergeResults (mergeResults (detectStructuredPII text types) ++
        findAllOccurrences text (mergeResults (detectStructuredPII text types))) := by
    simp only [detectAllPII, hz1, hz2, hz3, List.append_nil]
  have hregwf : ∀ x ∈ detectStructuredPII text types, wfSpan x := by
    intro x hx
    exact (detectPIIWithRegex_wfVerbatim text types x hx).wf
  have hAprops := mergeResults_props (detectStructuredPII text types) hregwf
  have hAvals : ∀ e ∈ mergeResults (detectStructuredPII text types), e.value ≠ [] := by
    intro e he
    exact (detectPIIWithRegex_wfVerbatim text types e (hAprops.2.2.2 e he)).value_ne
  have hOwf := @findAllOccurrences_wfVerbatim text _ hAvals
  refine ⟨hz1, hz2, hz3, heq, ?_⟩
  intro m hm hnoocc
  rw [heq]
  have hwfall : ∀ x ∈ (mergeResults (detectStructuredPII text types) ++
      findAllOccurrences text (mergeResults (detectStructuredPII text types))),
      wfSpan x := by
    intro x hx
    rcases List.mem_append.1 hx with h | h
    · exact hAprops.1 x h
    · exact (hOwf x h).wf
  refine mem_mergeResults_of_isolated hwfall (List.mem_append_left _ hm) ?_
  intro x hx hne
  rcases List.mem_append.1 hx with h | h
  · have hsymm : Symmetric (fun a b : PatternMatch => ¬ intersects a b) := by
      intro a b hab hint
      exact hab (intersects_comm.1 hint)
    exact hAprops.2.1.forall hsymm hm h (fun hh => hne hh.symm)
  · exact hnoocc x h

/-- C3 counterexample: with all generative calls failing on the text
"123-45-6789 and 123-45-67891234" (types SSN and ACCOUNT_NUMBER), the
PatternMatcher hit ACCOUNT_NUMBER "67891234" at span 23..31 is produced by
pattern detection but is absent from the detectAllPII result: the
higher-confidence retrospective occurrence of "123-45-6789" at span 16..27
overlaps it and wins the final merge.  So the result does not contain every
PatternMatcher hit. -/
theorem c3_counterexample :
    (⟨.ACCOUNT_NUMBER, "67891234".toList, 23, 31, 80⟩ : PatternMatch) ∈
        detectStructuredPII "123-45-6789 and 123-45-67891234".toList
          (some [.SSN, .ACCOUNT_NUMBER]) ∧
      (⟨.ACCOUNT_NUMBER, "67891234".toList, 23, 31, 80⟩ : PatternMatch) ∉
        detectAllPII "123-45-6789 and 123-45-67891234".toList
          (some [.SSN, .ACCOUNT_NUMBER]) failingOracle := by
  decide

/-- C5 counterexample: the pipeline does not validate model-supplied spans.
On the empty text, a contextual response claiming span 5..6 flows through to
the final result even though the span lies entirely outside the text, so not
every returned entity satisfies the span invariant. -/
theorem c5_counterexample :
    detectAllPII [] none ⟨.ok [⟨.SSN, ['x'], 5, 6, none⟩], .error (), .error ()⟩ =
        [⟨.SSN, ['x'], 5, 6, 75⟩] ∧
      ¬((⟨.SSN, ['x'], 5, 6, 75⟩ : PatternMatch).endIndex ≤ ([] : Str).length) := by
  decide



theorem oracleVerbatim.spansOK {text : Str} {o : Oracle} (h : oracleVerbatim text o) :
    oracleSpansOK o := by
  have hval : ∀ (st en : Nat), st < en → en ≤ text.length →
      (text.drop st).take (en - st) ≠ [] := by
    intro st en h1 h2 hv
    have := congrArg List.length hv
    simp only [List.length_nil, List.length_take, List.length_drop] at this
    omega
  refine ⟨?_, ?_, ?_⟩
  · intro l hl e he
    obtain ⟨h1, h2, h3⟩ := h.1 l hl e he
    exact ⟨h1, h3 ▸ hval _ _ h1 h2⟩
  · intro l hl e he
    obtain ⟨h1, h2, h3⟩ := h.2.1 l hl e he
    exact ⟨h1, h3 ▸ hval _ _ h1 h2⟩
  · intro l hl e he
    obtain ⟨h1, h2, h3⟩ := h.2.2 l hl e he
    exact ⟨h1, h3 ▸ hval _ _ h1 h2⟩

theorem detectContextualPII_verbatim {text : Str} {af : List PatternMatch}
    {types : Option (List EntityType)} {o : Oracle} (ho : oracleVerbatim text o) :
    ∀ m ∈ detectContextualPII text af types o, wfVerbatim text m := by
  intro m hm
  unfold detectContextualPII at hm
  rcases hoc : o.contextual with err | l <;> rw [hoc] at hm
  · rcases types with _ | ts <;> simp at hm
  · rcases types with _ | ts <;>
    · simp at hm
      obtain ⟨-, e, he, heq⟩ := hm
      rw [← heq]
      exact ho.1 l hoc e he

theorem detectUnstructuredPII_verbatim {text : Str} {types : Option (List EntityType)}
    {o : Oracle} (ho : oracleVerbatim text o) :
    ∀ m ∈ detectUnstructuredPII text types o, wfVerbatim text m := by
  intro m hm
  unfold detectUnstructuredPII at hm
  rcases hoc : o.unstructured with err | l <;> rw [hoc] at hm
  · rcases types with _ | ts <;> simp at hm
  · rcases types with _ | ts
    · simp at hm
      obtain ⟨e, ⟨he, -⟩, heq⟩ := hm
      rw [← heq]
      exact ho.2.1 l hoc e he
    · simp at hm
      obtain ⟨-, e, ⟨he, -⟩, heq⟩ := hm
      rw [← heq]
      exact ho.2.1 l hoc e he

theorem findEntityVariations_verbatim {text : Str} {entities : List PatternMatch}
    {o : Oracle} (ho : oracleVerbatim text o) :
    ∀ m ∈ findEntityVariations text entities o, wfVerbatim text m := by
  intro m hm
  unfold findEntityVariations at hm
  rcases hoc : o.variations with err | l <;> rw [hoc] at hm
  · simp at hm
  · simp at hm
    obtain ⟨-, e, he, heq⟩ := hm
    rw [← heq]
    exact ho.2.2 l hoc e he

/-- C5 (amended): every entity returned by detectAllPII is well-formed with
respect to the input text — its span satisfies the half-open invariant within
the text and its value is the verbatim substring at that span — for every
text, every type filter, and every external response whose own findings are
well-formed verbatim entities.  (The unconditional claim, for arbitrary
external responses, is refuted by `c5_counterexample`: model-supplied spans
and values are passed through unvalidated.) -/
theorem c5_entities_wellformed (text : Str) (types : Option (List EntityType))
    (o : Oracle) (ho : oracleVerbatim text o) :
    ∀ m ∈ detectAllPII text types o, wfVerbatim text m := by
  have hspans := ho.spansOK
  have hin : ∀ x ∈ (detectStructuredPII text types
      ++ detectContextualPII text (detectStructuredPII text types) types o
      ++ detectUnstructuredPII text types o), wfVerbatim text x := by
    intro x hx
    rcases List.mem_append.1 hx with h | h
    · rcases List.mem_append.1 h with h2 | h2
      · exact detectPIIWithRegex_wfVerbatim text types x h2
      · exact detectContextualPII_verbatim ho x h2
    · exact detectUnstructuredPII_verbatim ho x h
  have hmerged : ∀ x ∈ mergeResults (detectStructuredPII text types
      ++ detectContextualPII text (detectStructuredPII text types) types o
      ++ detectUnstructuredPII text types o), wfVerbatim text x := by
    intro x hx
    exact hin x ((mergeResults_props _ (fun y hy => (hin y hy).wf)).2.2.2 x hx)
  intro m hm
  simp only [detectAllPII] at hm
  have hall : ∀ x ∈ (mergeResults (detectStructuredPII text types
      ++ detectContextualPII text (detectStructuredPII text types) types o
      ++ detectUnstructuredPII text types o)
      ++ findAllOccurrences text (mergeResults (detectStructuredPII text types
        ++ detectContextualPII text (detectStructuredPII text types) types o
        ++ detectUnstructuredPII text types o))
      ++ findEntityVariations text (mergeResults (detectStructuredPII text types
        ++ detectContextualPII text (detectStructuredPII text types) types o
        ++ detectUnstructuredPII text types o)) o), wfVerbatim text x := by
    intro x hx
    rcases List.mem_append.1 hx with h | h
    · rcases List.mem_append.1 h with h2 | h2
      · exact hmerged x h2
      · exact findAllOccurrences_wfVerbatim (fun e he => (hmerged e he).value_ne) x h2
    · exact findEntityVariations_verbatim ho x h
  exact hall m ((mergeResults_props _ (fun y hy => (hall y hy).wf)).2.2.2 m hm)

/-- C8 counterexample: maskEntity for CUSTOM is not the literal "[REDACTED]"
(it is the all-asterisks fallback), and the NAME mask is not a fixed literal
token independent of the value (its length tracks the value). -/
theorem c8_counterexample :
    maskEntity .CUSTOM "abc".toList = ['*', '*', '*'] ∧
      maskEntity .CUSTOM "abc".toList ≠ "[REDACTED]".toList ∧
      maskEntity .NAME "Jo".toList ≠ maskEntity .NAME "John".toList := by
  decide

/-- C8 (amended): per-type behaviour of maskEntity for every input value.
SSN, CREDIT_CARD, ACCOUNT_NUMBER and PHONE preserve the last four digits of
the value behind their fixed mask prefixes; EMAIL preserves the first
character and the segment after the first at-sign; DOB is a fixed literal;
NAME, ADDRESS and CUSTOM have no table entry and fall back to an asterisk
string of the value's length (not a fixed literal, and not "[REDACTED]"). -/
theorem c8_mask_behaviour (v : Str) :
    maskEntity .SSN v = "***-**-".toList ++ last4Digits v ∧
      maskEntity .CREDIT_CARD v = "****-****-****-".toList ++ last4Digits v ∧
      maskEntity .ACCOUNT_NUMBER v = "****".toList ++ last4Digits v ∧
      maskEntity .PHONE v = "(***) ***-".toList ++ last4Digits v ∧
      maskEntity .EMAIL v = v.take 1 ++ "***@".toList ++ afterFirstAt v ∧
      maskEntity .DOB v = "**/**/****".toList ∧
      maskEntity .NAME v = List.replicate v.length '*' ∧
      maskEntity .ADDRESS v = List.replicate v.length '*' ∧
      maskEntity .CUSTOM v = List.replicate v.length '*' := by
  exact ⟨rfl, rfl, rfl, rfl, rfl, rfl, rfl, rfl, rfl⟩

/-- C7: on the bare text "4111111111111111" with no type filter, pattern
detection returns exactly one entity: the CREDIT_CARD hit covering the whole
text with confidence 0.95 (at least 0.9), whose mask is
"****-****-****-1111".  The overlapping ACCOUNT_NUMBER match over the same
16-digit run (shown by the execAll conjunct) is pre-merged away in favour of
the higher-confidence credit-card hit. -/
theorem c7_credit_card_example :
    detectPIIWithRegex "4111111111111111".toList none =
        [⟨.CREDIT_CARD, "4111111111111111".toList, 0, 16, 95⟩] ∧
      (90 : Nat) ≤ 95 ∧
      maskEntity .CREDIT_CARD "4111111111111111".toList =
        "****-****-****-1111".toList ∧
      execAll matchAcct "4111111111111111".toList = [(0, 16)] := by
  decide

end Redaction

namespace Redaction

/-! ## The retrospective recall property (C6) -/

theorem mem_upsertUnique_of_ne_key {k key : Str} {X e : PatternMatch} :
    ∀ {acc : List (Str × PatternMatch)}, (k, X) ∈ acc → k ≠ key →
      (k, X) ∈ upsertUnique key e acc := by
  intro acc
  induction acc with
  | nil => simp
  | cons a rest ih =>
    intro hmem hne
    simp only [upsertUnique]
    split
    · rename_i hk
      have hx : (k, X) ∈ rest := by
        rcases List.mem_cons.1 hmem with h | h
        · exfalso
          apply hne
          have : a.1 = k := congrArg Prod.fst h.symm
          rw [← this]
          exact eq_of_beq hk
        · exact h
      split
      · exact List.mem_cons_of_mem _ hx
      · exact List.mem_cons_of_mem _ hx
    · rcases List.mem_cons.1 hmem with h | h
      · exact h ▸ List.mem_cons_self _ _
      · exact List.mem_cons_of_mem _ (ih h hne)

/-- Elements after an upsert: old entries, or the upserted pair. -/
theorem mem_upsertUnique_pair {key : Str} {e : PatternMatch} :
    ∀ {acc : List (Str × PatternMatch)} {kv : Str × PatternMatch},
      kv ∈ upsertUnique key e acc → kv ∈ acc ∨ kv = (key, e) := by
  intro acc
  induction acc with
  | nil =>
    intro kv h
    simp only [upsertUnique, List.mem_singleton] at h
    exact Or.inr h
  | cons a rest ih =>
    intro kv h
    simp only [upsertUnique] at h
    split at h
    · rename_i hbeq
      split at h
      · rcases List.mem_cons.1 h with h2 | h2
        · refine Or.inr ?_
          rw [h2, eq_of_beq hbeq]
        · exact Or.inl (List.mem_cons_of_mem _ h2)
      · exact Or.inl h
    · rcases List.mem_cons.1 h with h2 | h2
      · exact Or.inl (h2 ▸ List.mem_cons_self _ _)
      · rcases ih h2 with h3 | h3
        · exact Or.inl (List.mem_cons_of_mem _ h3)
        · exact Or.inr h3

/-- The key invariant is preserved by one upsert step (where `e = X` whenever
`e`'s key is ours, which key-uniqueness of the entities guarantees). -/
theorem upsertUnique_key_invariant {k key : Str} {X e : PatternMatch}
    (hcase : key ≠ k ∨ e = X) :
    ∀ {acc : List (Str × PatternMatch)},
      (∀ kv ∈ acc, kv.1 = k → kv = (k, X)) →
      ∀ kv ∈ upsertUnique key e acc, kv.1 = k → kv = (k, X) := by
  intro acc hinv kv hkv hk
  rcases mem_upsertUnique_pair hkv with h | h
  · exact hinv kv h hk
  · subst h
    rcases hcase with hc | hc
    · exact absurd (show key = k from hk) hc
    · rw [show key = k from hk, hc]

theorem mem_upsertUnique_self {k : Str} {X : PatternMatch} :
    ∀ {acc : List (Str × PatternMatch)},
      (∀ kv ∈ acc, kv.1 = k → kv = (k, X)) →
      (k, X) ∈ upsertUnique k X acc := by
  intro acc
  induction acc with
  | nil => simp [upsertUnique]
  | cons a rest ih =>
    intro hinv
    simp only [upsertUnique]
    split
    · rename_i hk
      have ha : a = (k, X) := hinv a (List.mem_cons_self _ _) (eq_of_beq hk)
      split
      · rename_i hconf
        exfalso
        rw [ha] at hconf
        exact Nat.lt_irrefl _ hconf
      · rw [show (a.1, a.2) = a from rfl, ha]
        exact List.mem_cons_self _ _
    · exact List.mem_cons_of_mem _ (ih fun b hb => hinv b (List.mem_cons_of_mem _ hb))

/-- When an entity's lowercased value is unique among the entities, the
uniqueValues map stores that entity under its key. -/
theorem buildUniqueValues_key_mem {es : List PatternMatch} {X : PatternMatch}
    (hmem : X ∈ es)
    (huniq : ∀ Y ∈ es, toLowerStr Y.value = toLowerStr X.value → Y = X) :
    (toLowerStr X.value, X) ∈ buildUniqueValues es := by
  suffices hgen : ∀ (l : List PatternMatch) (acc : List (Str × PatternMatch)),
      (∀ Y ∈ l, Y ∈ es) →
      ((toLowerStr X.value, X) ∈ acc ∨ X ∈ l) →
      (∀ kv ∈ acc, kv.1 = toLowerStr X.value → kv = (toLowerStr X.value, X)) →
      (toLowerStr X.value, X) ∈
        l.foldl (fun acc e => upsertUnique (toLowerStr e.value) e acc) acc by
    exact hgen es [] (fun Y hY => hY) (Or.inr hmem) (by simp)
  intro l
  induction l with
  | nil =>
    intro acc _ hin _
    rcases hin with h | h
    · exact h
    · simp at h
  | cons e rest ih =>
    intro acc hsub hin hinv
    rw [List.foldl_cons]
    have hcase : toLowerStr e.value ≠ toLowerStr X.value ∨ e = X := by
      by_cases heq : toLowerStr e.value = toLowerStr X.value
      · exact Or.inr (huniq e (hsub e (List.mem_cons_self _ _)) heq)
      · exact Or.inl heq
    have hinv2 : ∀ kv ∈ upsertUnique (toLowerStr e.value) e acc,
        kv.1 = toLowerStr X.value → kv = (toLowerStr X.value, X) :=
      upsertUnique_key_invariant hcase hinv
    refine ih _ (fun Y hY => hsub Y (List.mem_cons_of_mem _ hY)) ?_ hinv2
    rcases hin with h | h
    · left
      by_cases hk : toLowerStr e.value = toLowerStr X.value
      · have he : e = X := by
          rcases hcase with hc | hc
          · exact absurd hk hc
          · exact hc
        subst he
        rw [hk]
        exact mem_upsertUnique_self hinv
      · exact mem_upsertUnique_of_ne_key h (fun hh => hk hh.symm)
    · rcases List.mem_cons.1 h with h2 | h2
      · left
        subst h2
        exact mem_upsertUnique_self hinv
      · exact Or.inr h2

/-- C6: retrospective recall.  If a value occurs in the text (case-
insensitively) at several offsets, exactly one of those occurrences is
present in the merged entity list (as the unique entity X carrying that
value), then after the retrospective occurrence scan the combined set
contains an entity at every occurrence of that value, each carrying X's type
and confidence. -/
theorem c6_retrospective_recall (text : Str) (entities : List PatternMatch)
    (X : PatternMatch)
    (hmem : X ∈ entities)
    (hne : X.value ≠ [])
    (huniq : ∀ Y ∈ entities, toLowerStr Y.value = toLowerStr X.value → Y = X)
    (hspan : X.endIndex = X.startIndex + X.value.length)
    (honlyone : ∀ i < text.length, occursAt text X.value i = true →
      i ≠ X.startIndex →
      ∀ e ∈ entities, ¬(e.startIndex = i ∧ e.endIndex = i + X.value.length)) :
    ∀ i, occursAt text X.value i = true →
      ∃ e ∈ entities ++ findAllOccurrences text entities,
        e.startIndex = i ∧ e.endIndex = i + X.value.length ∧
          e.type = X.type ∧ e.confidence = X.confidence := by
  intro i hi
  by_cases hip : i = X.startIndex
  · subst hip
    exact ⟨X, List.mem_append_left _ hmem, rfl, hspan, rfl, rfl⟩
  · have hkey : (toLowerStr X.value, X) ∈ buildUniqueValues entities :=
      buildUniqueValues_key_mem hmem huniq
    have hbound := occursAt_bound hne hi
    have hlt : i < text.length := by
      have := List.length_pos.2 hne
      omega
    refine ⟨⟨X.type, (text.drop i).take X.value.length, i, i + X.value.length,
        X.confidence⟩, ?_, rfl, rfl, rfl, rfl⟩
    refine List.mem_append_right _ ?_
    unfold findAllOccurrences
    refine List.mem_flatMap.2 ⟨(toLowerStr X.value, X), hkey, ?_⟩
    unfold scanValue
    refine List.mem_filterMap.2 ⟨i, List.mem_range.2 hlt, ?_⟩
    have hnotfound : (entities.any (fun e =>
        e.startIndex == i && e.endIndex == i + X.value.length)) = false := by
      rw [List.any_eq_false]
      intro e he
      have := honlyone i hlt hi hip e he
      simp only [Bool.and_eq_true, beq_iff_eq, not_and]
      intro h1 h2
      exact this ⟨h1, h2⟩
    rw [hi, hnotfound]
    rfl

end Redaction

namespace Redaction

/-! ## The DOB format coverage (C9) -/

theorem isDigit_digitChar {k : Nat} (h : k ≤ 9) : (digitChar k).isDigit = true := by
  interval_cases k <;> decide

theorem isWordChar_digitChar {k : Nat} (h : k ≤ 9) : isWordChar (digitChar k) = true := by
  interval_cases k <;> decide

theorem dateMDY_length (m d y : Nat) : (dateMDY m d y).length = 10 := by
  simp [dateMDY, twoDigits, fourDigits]

theorem monthSep_step {m : Nat} (h1 : 1 ≤ m) (h2 : m ≤ 12) (r : Str) :
    (monthOpts (twoDigits m ++ '/' :: r)).filterMap dobSep = [r] := by
  interval_cases m <;> rfl

theorem daySep_step {d : Nat} (h1 : 1 ≤ d) (h2 : d ≤ 31) (r : Str) :
    (dayOpts (twoDigits d ++ '/' :: r)).filterMap dobSep = [r] := by
  interval_cases d <;> rfl

theorem yearTake_fourDigits {y : Nat} (h1 : 1900 ≤ y) (h2 : y ≤ 2099) (r : Str) :
    yearTake (fourDigits y ++ r) = some r := by
  have e3 : y / 10 % 10 ≤ 9 := by omega
  have e4 : y % 10 ≤ 9 := by omega
  have h100 : y / 100 = 19 ∨ y / 100 = 20 := by omega
  rcases h100 with h | h
  · have e1 : y / 1000 = 1 := by omega
    have e2 : y / 100 % 10 = 9 := by omega
    simp only [fourDigits, e1, e2, List.cons_append, List.nil_append]
    show yearTake ('1' :: '9' :: digitChar (y / 10 % 10) :: digitChar (y % 10) :: r) =
      some r
    unfold yearTake
    simp [isDigit_digitChar e3, isDigit_digitChar e4]
  · have e1 : y / 1000 = 2 := by omega
    have e2 : y / 100 % 10 = 0 := by omega
    simp only [fourDigits, e1, e2, List.cons_append, List.nil_append]
    show yearTake ('2' :: '0' :: digitChar (y / 10 % 10) :: digitChar (y % 10) :: r) =
      some r
    unfold yearTake
    simp [isDigit_digitChar e3, isDigit_digitChar e4]

theorem matchDOB_dateMDY {m d y : Nat} (h1 : 1 ≤ m) (h2 : m ≤ 12) (h3 : 1 ≤ d)
    (h4 : d ≤ 31) (h5 : 1900 ≤ y) (h6 : y ≤ 2099) :
    matchDOB none (dateMDY m d y) = some 10 := by
  have hb : atBoundary none (dateMDY m d y).head? = true := by
    have hm10 : m / 10 ≤ 9 := by omega
    simp only [dateMDY, twoDigits, List.cons_append, List.head?_cons]
    simp [atBoundary, isWordOpt, isWordChar_digitChar hm10]
  unfold matchDOB
  rw [hb]
  simp only [Bool.not_true, Bool.false_eq_true, if_false]
  have hshape : dateMDY m d y = twoDigits m ++ '/' :: (twoDigits d ++ '/' ::
      (fourDigits y ++ [])) := by
    simp [dateMDY]
  rw [hshape, monthSep_step h1 h2]
  simp only [List.flatMap_cons, List.flatMap_nil, List.append_nil]
  rw [daySep_step h3 h4]
  have hyear : yearTake (fourDigits y) = some [] := by
    have hx := yearTake_fourDigits h5 h6 []
    rwa [List.append_nil] at hx
  simp only [List.filterMap_cons, hyear, List.filterMap_nil, List.filter_cons,
    List.filter_nil, List.head?_nil, isWordOpt, Bool.not_false, if_true,
    List.length_nil, Nat.sub_zero]
  have hlen : (twoDigits m ++ '/' :: (twoDigits d ++ '/' :: fourDigits y)).length
      = 10 := by
    simp [twoDigits, fourDigits]
  rw [hlen]

theorem execGo_nil {f : Option Char → Str → Option Nat} (fuel : Nat)
    (prev : Option Char) (i : Nat) : execGo f fuel prev i [] = [] := by
  cases fuel <;> simp [execGo]

theorem execGo_cons_some {f : Option Char → Str → Option Nat} {prev : Option Char}
    {i len : Nat} {c : Char} {rest : Str} (fuel : Nat)
    (h : f prev (c :: rest) = some len) :
    execGo f (fuel + 1) prev i (c :: rest) =
      (i, len) :: execGo f fuel (((c :: rest).take len).getLast?) (i + len)
        ((c :: rest).drop len) := by
  simp only [execGo, h]

theorem execAll_matchDOB_dateMDY {m d y : Nat} (h1 : 1 ≤ m) (h2 : m ≤ 12) (h3 : 1 ≤ d)
    (h4 : d ≤ 31) (h5 : 1900 ≤ y) (h6 : y ≤ 2099) :
    execAll matchDOB (dateMDY m d y) = [(0, 10)] := by
  unfold execAll
  have hcons : dateMDY m d y = digitChar (m / 10) :: (digitChar (m % 10) :: '/' ::
      twoDigits d ++ '/' :: fourDigits y) := by
    simp [dateMDY, twoDigits]
  have hdrop : (dateMDY m d y).drop 10 = [] := by
    rw [← dateMDY_length m d y]
    exact List.drop_length _
  rw [hcons]
  rw [execGo_cons_some _ (by rw [← hcons]; exact matchDOB_dateMDY h1 h2 h3 h4 h5 h6)]
  rw [← hcons, hdrop, execGo_nil]

/-- C9 (amended): the DOB pattern covers the numeric MM/DD/YYYY format: for
every valid month, day and 1900-2099 year, detection on the two-digit
slash-separated date emits exactly the DOB candidate spanning it with
confidence 0.70.  (The original claim also asserted coverage of ISO
YYYY-MM-DD and spelled-month dates, which `c9_counterexample` refutes.) -/
theorem c9_dob_numeric_format (m d y : Nat) (h1 : 1 ≤ m) (h2 : m ≤ 12) (h3 : 1 ≤ d)
    (h4 : d ≤ 31) (h5 : 1900 ≤ y) (h6 : y ≤ 2099) :
    detectPIIWithRegex (dateMDY m d y) (some [.DOB]) =
      [⟨.DOB, dateMDY m d y, 0, 10, 70⟩] := by
  simp only [detectPIIWithRegex]
  have hpat : PII_PATTERNS.filter (fun p => p.type ∈ [EntityType.DOB]) =
      [⟨.DOB, matchDOB, maskDOB, 70⟩] := by rfl
  rw [hpat]
  simp only [List.flatMap_cons, List.flatMap_nil, List.append_nil]
  rw [execAll_matchDOB_dateMDY h1 h2 h3 h4 h5 h6]
  simp only [List.map_cons, List.map_nil, List.drop_zero, Nat.zero_add]
  have htake : (dateMDY m d y).take 10 = dateMDY m d y := by
    rw [← dateMDY_length m d y]
    exact List.take_length _
  rw [htake]
  rfl

/-- C9 counterexample: an ISO-format date ("1985-01-15") and a spelled-month
date ("January 15, 1985") produce no DOB candidate at all, while the numeric
MM/DD/YYYY form of the same date is detected; the DOB regex covers only the
numeric month-first format. -/
theorem c9_counterexample :
    detectPIIWithRegex "1985-01-15".toList (some [.DOB]) = [] ∧
      detectPIIWithRegex "January 15, 1985".toList (some [.DOB]) = [] ∧
      detectPIIWithRegex "01/15/1985".toList (some [.DOB]) =
        [⟨.DOB, "01/15/1985".toList, 0, 10, 70⟩] := by
  decide

end Redaction

namespace Redaction

/-! ## The cache round-trip (C10) -/

/-- C10 counterexample: a stored cache state within the size bound whose
single entry has valueLength 0 (as produced by caching an empty value) fails
the truthiness validation of importCache, so export followed by import with
merge=false is rejected instead of reproducing the state. -/
theorem c10_counterexample :
    importCache (exportCache [⟨"i1".toList, "h1".toList, "m1".toList, .SSN, 5, 1, 0⟩])
        false [⟨"i1".toList, "h1".toList, "m1".toList, .SSN, 5, 1, 0⟩] = .error () ∧
      ([⟨"i1".toList, "h1".toList, "m1".toList, .SSN, 5, 1, 0⟩] :
        List CachedRedaction).length ≤ MAX_CACHE_SIZE :=
  ⟨rfl, by decide⟩

/-- C10 (amended): export followed by import with merge=false reproduces an
identical entry set (order-independent) for every stored cache state within
the size bound whose records all have truthy required fields (non-empty
valueHash and maskedValue, non-zero valueLength); and an import payload in
which any record lacks a required field is rejected as a whole (the import
throws, for either merge mode and any existing cache, which leaves the
stored cache untouched).  The unrestricted round-trip claim fails on states
with falsy required fields (`c10_counterexample`). -/
theorem c10_cache_roundtrip_and_rejection :
    (∀ (cache existing : List CachedRedaction),
      cache.length ≤ MAX_CACHE_SIZE →
      (∀ c ∈ cache, c.valueHash ≠ [] ∧ c.maskedValue ≠ [] ∧ c.valueLength ≠ 0) →
      ∃ out, importCache (exportCache cache) false existing = .ok out ∧
        List.Perm out cache) ∧
    (∀ (payload : List ImportRecord) (merge : Bool)
        (existing : List CachedRedaction) (r : ImportRecord), r ∈ payload →
      (r.valueHash = none ∨ r.maskedValue = none ∨ r.type = none ∨
        r.valueLength = none) →
      importCache payload merge existing = .error ()) := by
  constructor
  · intro cache existing hsize hgood
    have hvalid : (exportCache cache).all recordValid = true := by
      rw [List.all_eq_true]
      intro r hr
      rcases List.mem_map.1 hr with ⟨c, hc, heq⟩
      obtain ⟨g1, g2, g3⟩ := hgood c hc
      subst heq
      simp [recordValid, truthyStr, truthyNat, g1, g2, g3]
    have hmapall : ∀ l : List CachedRedaction, (exportCache l).map toCached = l := by
      intro l
      induction l with
      | nil => rfl
      | cons c rest ih =>
        show c :: (exportCache rest).map toCached = c :: rest
        rw [ih]
    refine ⟨saveCachedRedactions cache, ?_, ?_⟩
    · unfold importCache
      rw [hvalid]
      show Except.ok (saveCachedRedactions ((exportCache cache).map toCached)) =
        Except.ok (saveCachedRedactions cache)
      rw [hmapall]
    · unfold saveCachedRedactions
      have hlen : (List.insertionSort cacheLE cache).length = cache.length :=
        List.length_insertionSort cacheLE cache
      rw [List.take_of_length_le (by omega)]
      exact List.perm_insertionSort cacheLE cache
  · intro payload merge existing r hr hmiss
    have hrv : recordValid r = false := by
      rcases hmiss with h | h | h | h <;>
        simp [recordValid, truthyStr, truthyNat, h]
    have hall : payload.all recordValid = false := by
      by_contra hc
      rw [Bool.not_eq_false, List.all_eq_true] at hc
      have hcontra := hc r hr
      rw [hrv] at hcontra
      exact Bool.false_ne_true hcontra
    unfold importCache
    rw [hall]
    rfl

end Redaction

namespace Redaction

/-! ## Witnesses: the hypothesis-bearing claim theorems applied at concrete
inputs. -/

/-- Witness for C1 at a concrete overlapping candidate pair, a concrete text
and the failing oracle. -/
theorem c1_witness :
    (mergeResults [⟨.ACCOUNT_NUMBER, "987654321".toList, 2, 11, 80⟩,
        ⟨.SSN, "987-65-4321".toList, 2, 13, 95⟩]).Pairwise
      (fun a b => ¬ intersects a b) ∧
      (deduplicateMatches [⟨.ACCOUNT_NUMBER, "987654321".toList, 2, 11, 80⟩,
        ⟨.SSN, "987-65-4321".toList, 2, 13, 95⟩]).Pairwise
        (fun a b => ¬ intersects a b) ∧
      (detectAllPII "ab".toList none failingOracle).Pairwise
        (fun a b => ¬ intersects a b) :=
  c1_merge_pairwise_nonoverlapping
    [⟨.ACCOUNT_NUMBER, "987654321".toList, 2, 11, 80⟩,
     ⟨.SSN, "987-65-4321".toList, 2, 13, 95⟩]
    "ab".toList none failingOracle (by decide)
    ⟨fun l h => (nomatch h), fun l h => (nomatch h), fun l h => (nomatch h)⟩

/-- Witness for C3: on a single-SSN text with the failing oracle, the
surviving pattern hit is in the final result. -/
theorem c3_witness :
    (⟨.SSN, "123-45-6789".toList, 0, 11, 95⟩ : PatternMatch) ∈
      detectAllPII "123-45-6789".toList (some [.SSN]) failingOracle :=
  (c3_llm_failure_degradation "123-45-6789".toList (some [.SSN])).2.2.2.2
    ⟨.SSN, "123-45-6789".toList, 0, 11, 95⟩ (by decide) (by decide)

/-- Witness for C4 at a concrete overlapping candidate pair. -/
theorem c4_witness :
    mergeResults (mergeResults [⟨.ACCOUNT_NUMBER, "12345678".toList, 0, 8, 80⟩,
        ⟨.SSN, "123-45-6789".toList, 3, 14, 95⟩]) =
      mergeResults [⟨.ACCOUNT_NUMBER, "12345678".toList, 0, 8, 80⟩,
        ⟨.SSN, "123-45-6789".toList, 3, 14, 95⟩] :=
  c4_merge_idempotent
    [⟨.ACCOUNT_NUMBER, "12345678".toList, 0, 8, 80⟩,
     ⟨.SSN, "123-45-6789".toList, 3, 14, 95⟩] (by decide)

/-- Witness for C5: the credit-card entity detected on a concrete text is
well-formed and verbatim. -/
theorem c5_witness :
    wfVerbatim "4111111111111111".toList
      ⟨.CREDIT_CARD, "4111111111111111".toList, 0, 16, 95⟩ :=
  c5_entities_wellformed "4111111111111111".toList none failingOracle
    ⟨fun l h => (nomatch h), fun l h => (nomatch h), fun l h => (nomatch h)⟩
    ⟨.CREDIT_CARD, "4111111111111111".toList, 0, 16, 95⟩ (by decide)

/-- Witness for C6: on the text "ab AB" with a single NAME detection of "ab"
at offset 0, the combined set covers the second (case-insensitive) occurrence
at offset 3 with the same type and confidence. -/
theorem c6_witness :
    ∃ e ∈ ([⟨.NAME, "ab".toList, 0, 2, 85⟩] ++
        findAllOccurrences "ab AB".toList [⟨.NAME, "ab".toList, 0, 2, 85⟩]),
      e.startIndex = 3 ∧ e.endIndex = 3 + ("ab".toList).length ∧
        e.type = EntityType.NAME ∧ e.confidence = 85 :=
  c6_retrospective_recall "ab AB".toList [⟨.NAME, "ab".toList, 0, 2, 85⟩]
    ⟨.NAME, "ab".toList, 0, 2, 85⟩ (by decide) (by decide) (by decide) (by decide)
    (by decide) 3 (by decide)

/-- Witness for C9 at the date 01/15/1985. -/
theorem c9_witness :
    detectPIIWithRegex (dateMDY 1 15 1985) (some [.DOB]) =
      [⟨.DOB, dateMDY 1 15 1985, 0, 10, 70⟩] :=
  c9_dob_numeric_format 1 15 1985 (by decide) (by decide) (by decide) (by decide)
    (by decide) (by decide)

/-- Witness for C10: a concrete valid single-entry cache round-trips, and a
concrete payload with a missing valueHash is rejected. -/
theorem c10_witness :
    (∃ out, importCache (exportCache [⟨"i2".toList, "h2".toList, "m2".toList,
        .EMAIL, 7, 2, 4⟩]) false [] = .ok out ∧
      List.Perm out [⟨"i2".toList, "h2".toList, "m2".toList, .EMAIL, 7, 2, 4⟩]) ∧
      importCache [⟨some "i".toList, none, some "m".toList, some .SSN, none, none,
        some 3⟩] true [] = .error () :=
  ⟨c10_cache_roundtrip_and_rejection.1 [⟨"i2".toList, "h2".toList, "m2".toList,
      .EMAIL, 7, 2, 4⟩] [] (by decide) (by decide),
   c10_cache_roundtrip_and_rejection.2 [⟨some "i".toList, none, some "m".toList,
      some .SSN, none, none, some 3⟩] true []
      ⟨some "i".toList, none, some "m".toList, some .SSN, none, none, some 3⟩
      (List.mem_cons_self _ _) (Or.inl rfl)⟩

end Redaction
